import Mathlib

/-!
Verification of the nix-weather core against its specification.

This file gives a shallow embedding of the program's data model and
operations (src/lib.rs, src/narinfo.rs, src/derivation.rs) and proves
properties about them.  Byte strings are modelled as `List Char`
(the program only ever treats bytes as ASCII text before handing them
to `String::from_utf8_lossy`, which is the identity on ASCII), machine
integers as `Nat`, fallible or panicking code as `Option`, and the
unbounded recursions of the source as fuelled recursions together with
theorems showing that enough fuel always exists.
-/

set_option maxRecDepth 100000

namespace NixWeather

/-! ## Content hashes (src/lib.rs, `StoreHash`) -/

def NIX_HASH_LENGTH : Nat := 32

/-- A store hash: the first `NIX_HASH_LENGTH` bytes of a store file name
(`struct StoreHash([u8; NIX_HASH_LENGTH])`). -/
structure StoreHash where
  chars : List Char
deriving DecidableEq, Repr

/-- `StoreHash::from_name`: the first 32 bytes of a name.  The source
asserts that the name has at least 32 bytes (`try_into().expect`); we
model the extracted prefix directly. -/
def StoreHash.fromName (name : String) : StoreHash :=
  ⟨name.toList.take NIX_HASH_LENGTH⟩

/-- Split a character list at every occurrence of `sep`. -/
def splitOnChar (sep : Char) : List Char → List Char → List (List Char)
  | [], acc => [acc.reverse]
  | c :: t, acc =>
    if c = sep then acc.reverse :: splitOnChar sep t []
    else splitOnChar sep t (c :: acc)

/-- `Path::file_name`, an external collaborator of `split_path` and
`from_path`: the final non-empty component of a `/`-separated path. -/
def fileName (path : String) : String :=
  ⟨(((splitOnChar ('/') path.toList []).filter (fun s => s ≠ [])).getLastD [])⟩

/-- `StoreHash::split`: split a file name into the hash and the part after
the separating dash (`split_at(NIX_HASH_LENGTH)` followed by `&rest[1..]`). -/
def StoreHash.split (name : String) : StoreHash × String :=
  (StoreHash.fromName name, ⟨name.toList.drop (NIX_HASH_LENGTH + 1)⟩)

/-- `StoreHash::split_path`: split the file name of a path. -/
def StoreHash.splitPath (path : String) : StoreHash × String :=
  StoreHash.split (fileName path)

/-- `StoreHash::from_path`. -/
def StoreHash.fromPath (path : String) : StoreHash :=
  StoreHash.fromName (fileName path)

/-- `StoreHash::to_str`. -/
def StoreHash.toStr (h : StoreHash) : String := ⟨h.chars⟩

/-! ## Derivation data model (src/derivation.rs) -/

/-- `struct DrvOutput`. -/
structure DrvOutput where
  key : String
  path : String
  hashAlgo : String
  hash : String
deriving DecidableEq, Repr

/-- `struct InputDrv`. -/
structure InputDrv where
  path : String
  outputs : List String
deriving DecidableEq, Repr

/-- `struct Drv`. -/
structure Drv where
  outputs : List DrvOutput
  inputDrvs : List InputDrv
  inputSrcs : List String
  platform : String
  builder : String
  builderArgs : List String
  env : List (String × String)
deriving DecidableEq, Repr

/-- `Drv::find_name`: the value of the first `name` key of the env list,
defaulting to `"unknown"`. -/
def Drv.findName (d : Drv) : String :=
  (((d.env.find? (fun kv => kv.1 == "name")).map Prod.snd).getD ("unknown"))

/-- `Drv::find_output`: the first declared output with the given key. -/
def Drv.findOutput (d : Drv) (key : String) : Option DrvOutput :=
  d.outputs.find? (fun o => o.key == key)

/-! ## nom-style parser core

The source parses with nom 5 combinators.  We embed the combinators it
uses directly: a parser takes the remaining input and returns either a
success with the rest of the input, a recoverable error, or nom's
streaming-mode `Incomplete` (needs more input).  `alt` retries only on
a recoverable error, exactly as nom does. -/

inductive PRes (α : Type) where
  | ok (rest : List Char) (val : α)
  | err
  | incomplete
deriving DecidableEq, Repr

/-- The type of embedded nom parsers over byte strings. -/
def NP (α : Type) : Type := List Char → PRes α

/-- `character::complete::char`: match one exact character; errors on
empty input (complete mode). -/
def charP (c : Char) : NP Char := fun i =>
  match i with
  | [] => .err
  | x :: r => if x = c then .ok r c else .err

/-- `bytes::streaming::tag`: match an exact byte string; if the input is
a proper prefix of the tag, more input could still match (incomplete). -/
def tagP (s : List Char) : NP (List Char) := fun i =>
  if s.isPrefixOf i then .ok (i.drop s.length) s
  else if i.isPrefixOf s then .incomplete
  else .err

/-- `bytes::streaming::is_not`: take the longest non-empty run of
characters outside `set`; incomplete when the run reaches the end of
the input, error when it is empty. -/
def isNotP (set : List Char) : NP (List Char) := fun i =>
  let taken := i.takeWhile (fun c => ¬ set.contains c)
  if taken.length = i.length then .incomplete
  else if taken = [] then .err
  else .ok (i.drop taken.length) taken

/-- `character::streaming::newline`. -/
def newlineP : NP Char := fun i =>
  match i with
  | [] => .incomplete
  | c :: r => if c = '\n' then .ok r c else .err

/-- Sequential composition, the combinator underlying nom's `tuple`,
`preceded`, `terminated` and `separated_pair`. -/
def NP.bind (p : NP α) (f : α → NP β) : NP β := fun i =>
  match p i with
  | .ok r v => f v r
  | .err => .err
  | .incomplete => .incomplete

/-- `combinator::map`. -/
def NP.map (p : NP α) (f : α → β) : NP β := fun i =>
  match p i with
  | .ok r v => .ok r (f v)
  | .err => .err
  | .incomplete => .incomplete

/-- `branch::alt` of two parsers: the second branch runs only when the
first fails with a recoverable error (not on `Incomplete`). -/
def altP (p q : NP α) : NP α := fun i =>
  match p i with
  | .err => q i
  | r => r

/-- `sequence::terminated`. -/
def terminatedP (a : NP α) (b : NP β) : NP α :=
  a.bind (fun x => b.map (fun _ => x))

/-- `sequence::preceded`. -/
def precededP (a : NP α) (b : NP β) : NP β :=
  a.bind (fun _ => b)

/-- `combinator::value`. -/
def valueP (v : β) (p : NP α) : NP β :=
  p.map (fun _ => v)

/-- `combinator::opt`: recoverable failure becomes `none` without
consuming input; `Incomplete` propagates (nom streaming behaviour). -/
def optP (p : NP α) : NP (Option α) := fun i =>
  match p i with
  | .ok r v => .ok r (some v)
  | .err => .ok i none
  | .incomplete => .incomplete

/-! ## Cache-metadata parser (src/narinfo.rs) -/

/-- `struct NarInfo`. -/
structure NarInfo where
  storePath : String
  url : String
  compression : String
  fileHash : String
  fileSize : Nat
  narHash : String
  narSize : Nat
  references : List String
  deriver : Option String
  sig : String
deriving DecidableEq, Repr

/-- `fn data`: one newline-terminated line (its content without the
newline), or a bare newline producing the byte string `"\n"`. -/
def dataP : NP (List Char) :=
  altP (terminatedP (isNotP ['\n']) newlineP) (valueP ['\n'] newlineP)

/-- `fn string` (narinfo.rs): a data line decoded as a string
(`String::from_utf8_lossy`, the identity on ASCII). -/
def lineP : NP String :=
  NP.map dataP (fun b => ⟨b⟩)

/-- `str::split_whitespace`: maximal non-whitespace runs, no empty
items. -/
def splitWhitespace : List Char → List Char → List (List Char)
  | [], acc => if acc = [] then [] else [acc.reverse]
  | c :: t, acc =>
    if c.isWhitespace then
      if acc = [] then splitWhitespace t []
      else acc.reverse :: splitWhitespace t []
    else splitWhitespace t (c :: acc)

/-- `fn string_list`: a data line split on whitespace
(`str::split_whitespace` produces no empty items). -/
def stringListP : NP (List String) :=
  NP.map dataP (fun b => (splitWhitespace b []).map (fun w => (⟨w⟩ : String)))

/-- `u64::from_str` as used by nom's `parse_to!(u64)`: an optional `+`
sign, then one or more ASCII digits, rejecting values outside `u64`. -/
def parseU64 (s : List Char) : Option Nat :=
  let digits := match s with
    | '+' :: t => t
    | t => t
  if digits = [] then none
  else if digits.all (fun c => c.isDigit) then
    let v := digits.foldl (fun acc c => acc * 10 + (c.toNat - 48)) 0
    if v < 2 ^ 64 then some v else none
  else none

/-- `fn size`: `map_parser(data, parse_to!(u64))` — the whole data line
must parse as a `u64`. -/
def sizeP : NP Nat := fun i =>
  match dataP i with
  | .ok r b =>
    match parseU64 b with
    | some v => .ok r v
    | none => .err
  | .err => .err
  | .incomplete => .incomplete

/-- `fn narinfo`: the fixed-order key/value record. -/
def narinfoP : NP NarInfo :=
  NP.bind (tagP (("StorePath: ").toList)) fun _ =>
  NP.bind lineP fun storePath =>
  NP.bind (tagP (("URL: ").toList)) fun _ =>
  NP.bind lineP fun url =>
  NP.bind (tagP (("Compression: ").toList)) fun _ =>
  NP.bind lineP fun compression =>
  NP.bind (tagP (("FileHash: ").toList)) fun _ =>
  NP.bind lineP fun fileHash =>
  NP.bind (tagP (("FileSize: ").toList)) fun _ =>
  NP.bind sizeP fun fileSize =>
  NP.bind (tagP (("NarHash: ").toList)) fun _ =>
  NP.bind lineP fun narHash =>
  NP.bind (tagP (("NarSize: ").toList)) fun _ =>
  NP.bind sizeP fun narSize =>
  NP.bind (tagP (("References: ").toList)) fun _ =>
  NP.bind stringListP fun references =>
  NP.bind (optP (precededP (tagP (("Deriver: ").toList)) lineP)) fun deriver =>
  NP.bind (tagP (("Sig: ").toList)) fun _ =>
  NP.map lineP fun sig =>
  { storePath := storePath, url := url, compression := compression,
    fileHash := fileHash, fileSize := fileSize, narHash := narHash,
    narSize := narSize, references := references, deriver := deriver,
    sig := sig }

/-- `NarInfo::from`: `None` for the exact 3-byte body `404`, otherwise
the parse result converted to an `Option` (`narinfo(body).ok()`), with
any unparsed rest of the body discarded. -/
def NarInfo.from (body : List Char) : Option NarInfo :=
  if body = (("404").toList) then none
  else
    match narinfoP body with
    | .ok _ info => some info
    | _ => none

/-! ## Derivation grammar parser (src/derivation.rs) -/

/-- The escape table of `fn string` (derivation.rs): the only backslash
escapes the grammar accepts (`\\`, `\"`, `\n`, `\t`), with the
characters they transform to. -/
def escMap (c : Char) : Option Char :=
  if c = '\\' then some '\\'
  else if c = '"' then some '"'
  else if c = 'n' then some '\n'
  else if c = 't' then some '\t'
  else none

/-- The scanning loop of
`escaped_transform(is_not("\\\""), '\\', alt((...)))` in streaming mode,
entered once the input is non-empty: consume ordinary characters, stop
(without consuming) at `"`, transform backslash escapes, fail on an
unrecognized escape, and report `Incomplete` when scanning runs off the
end of the input (streaming `is_not`), when the control backslash is the
last byte, or when an escape sequence ends the input. -/
def escTransGo : List Char → PRes (List Char)
  | [] => .incomplete
  | c :: rest =>
    if c = '\\' then
      match rest with
      | [] => .incomplete
      | e :: rest2 =>
        match escMap e with
        | none => .err
        | some t =>
          match escTransGo rest2 with
          | .ok r v => .ok r (t :: v)
          | .err => .err
          | .incomplete => .incomplete
    else if c = '"' then .ok (c :: rest) []
    else
      match escTransGo rest with
      | .ok r v => .ok r (c :: v)
      | .err => .err
      | .incomplete => .incomplete

/-- `escaped_transform` (streaming): on empty input the loop is never
entered and the empty result is returned. -/
def escTrans : NP (List Char) := fun i =>
  if i = [] then .ok [] [] else escTransGo i

/-- `fn string` (derivation.rs): a double-quote delimited string with
the four recognized escapes, decoded with `String::from_utf8_lossy`. -/
def dstringP : NP String :=
  NP.bind (charP '"') fun _ =>
  NP.bind escTrans fun b =>
  NP.map (charP '"') fun _ => (⟨b⟩ : String)

/-- `fn comma`. -/
def commaP : NP Char := charP ','

/-- `fn in_parens`. -/
def inParens (p : NP α) : NP α :=
  NP.bind (charP '(') fun _ =>
  NP.bind p fun v =>
  NP.map (charP ')') fun _ => v

/-- `fn pair`: two parsers in parentheses separated by a comma. -/
def pairP (a : NP α) (b : NP β) : NP (α × β) :=
  inParens (NP.bind a fun x => NP.bind commaP fun _ => NP.map b fun y => (x, y))

/-- The loop of nom 5 `multi::separated_list` (fuelled; the source loop
is bounded by the input length since the comma separator consumes a
byte on every iteration).  `i` is the position before the next
separator.  A recoverable failure of the separator, or of the element
after it, ends the list at `i`; `Incomplete` propagates; an iteration
that consumes no input at all is an error (nom's `SeparatedList`
check). -/
def sepListLoop (p : NP α) : Nat → List Char → List α → PRes (List α)
  | 0, _, _ => .err
  | fuel + 1, i, acc =>
    match commaP i with
    | .err => .ok i acc.reverse
    | .incomplete => .incomplete
    | .ok i1 _ =>
      if i1 = i then .err
      else
        match p i1 with
        | .err => .ok i acc.reverse
        | .incomplete => .incomplete
        | .ok i2 x =>
          if i2 = i then .err
          else sepListLoop p fuel i2 (x :: acc)

/-- nom 5 `multi::separated_list(char(','), p)`: zero or more `p`
separated by commas, no trailing comma. -/
def sepListP (p : NP α) (fuel : Nat) : NP (List α) := fun i =>
  match p i with
  | .err => .ok i []
  | .incomplete => .incomplete
  | .ok i1 x =>
    if i1 = i then .err
    else sepListLoop p fuel i1 [x]

/-- `fn list_of`: a bracketed comma-separated list. -/
def listOf (p : NP α) (fuel : Nat) : NP (List α) :=
  NP.bind (charP '[') fun _ =>
  NP.bind (sepListP p fuel) fun l =>
  NP.map (charP ']') fun _ => l

/-- `fn drv_output`. -/
def drvOutputP : NP DrvOutput :=
  inParens (
    NP.bind dstringP fun key =>
    NP.bind commaP fun _ =>
    NP.bind dstringP fun path =>
    NP.bind commaP fun _ =>
    NP.bind dstringP fun hashAlgo =>
    NP.bind commaP fun _ =>
    NP.map dstringP fun hash =>
    { key := key, path := path, hashAlgo := hashAlgo, hash := hash })

/-- `fn input_drv`. -/
def inputDrvP (fuel : Nat) : NP InputDrv :=
  inParens (
    NP.bind dstringP fun path =>
    NP.bind commaP fun _ =>
    NP.map (listOf dstringP fuel) fun outputs =>
    { path := path, outputs := outputs })

/-- `fn drv`: the fixed positional derivation grammar.  `fuel` bounds
the list loops. -/
def drvBodyP (fuel : Nat) : NP Drv :=
  precededP (tagP (("Derive").toList)) (inParens (
    NP.bind (listOf drvOutputP fuel) fun outputs =>
    NP.bind commaP fun _ =>
    NP.bind (listOf (inputDrvP fuel) fuel) fun inputDrvs =>
    NP.bind commaP fun _ =>
    NP.bind (listOf dstringP fuel) fun inputSrcs =>
    NP.bind commaP fun _ =>
    NP.bind dstringP fun platform =>
    NP.bind commaP fun _ =>
    NP.bind dstringP fun builder =>
    NP.bind commaP fun _ =>
    NP.bind (listOf dstringP fuel) fun builderArgs =>
    NP.bind commaP fun _ =>
    NP.map (listOf (pairP dstringP dstringP) fuel) fun env =>
    { outputs := outputs, inputDrvs := inputDrvs, inputSrcs := inputSrcs,
      platform := platform, builder := builder, builderArgs := builderArgs,
      env := env }))

/-- `fn drv` on a complete buffer: the input length plus one always
suffices as fuel, since every list element consumes at least one byte. -/
def drvP (i : List Char) : PRes Drv := drvBodyP (i.length + 1) i

/-- `Drv::read_from` once the file bytes are read: the parse must
succeed (`expect("Unable to parse derivation")`) and must consume the
entire input (`assert!(rest.is_empty())`); a violation aborts the
program, modelled as `none`. -/
def readFromBytes (content : List Char) : Option Drv :=
  match drvP content with
  | .ok [] d => some d
  | _ => none

/-! ## Serialization of the derivation grammar (spec §4.1)

`encodeDrv` writes out exactly the grammar of §4.1; its image is the
set of well-formed derivation byte strings that claim C7 quantifies
over. -/

/-- Escape one character as the string grammar requires. -/
def escChar (c : Char) : List Char :=
  if c = '\\' then ['\\', '\\']
  else if c = '"' then ['\\', '"']
  else if c = '\n' then ['\\', 'n']
  else if c = '\t' then ['\\', 't']
  else [c]

/-- Serialize a string: quote, escaped body, quote. -/
def encodeString (s : String) : List Char :=
  '"' :: ((s.toList.map escChar).flatten ++ ['"'])

/-- Comma-intercalate encoded elements. -/
def sepByComma : List (List Char) → List Char
  | [] => []
  | [x] => x
  | x :: y :: t => x ++ ',' :: sepByComma (y :: t)

/-- The comma-prefixed continuation of a serialized list: one `,`
followed by the element, per remaining element. -/
def sepTail (enc : α → List Char) : List α → List Char
  | [] => []
  | x :: t => ',' :: (enc x ++ sepTail enc t)

/-- Serialize a bracketed comma-separated list. -/
def encodeListOf (enc : α → List Char) (l : List α) : List Char :=
  '[' :: (sepByComma (l.map enc) ++ [']'])

/-- Serialize one declared output. -/
def encodeOutput (o : DrvOutput) : List Char :=
  '(' :: (encodeString o.key ++ ',' :: encodeString o.path ++
    ',' :: encodeString o.hashAlgo ++ ',' :: encodeString o.hash ++ [')'])

/-- Serialize one input-recipe reference. -/
def encodeInputDrv (i : InputDrv) : List Char :=
  '(' :: (encodeString i.path ++ ',' :: encodeListOf encodeString i.outputs ++ [')'])

/-- Serialize one env pair. -/
def encodePairSS (kv : String × String) : List Char :=
  '(' :: (encodeString kv.1 ++ ',' :: encodeString kv.2 ++ [')'])

/-- Serialize a whole derivation in the grammar of §4.1. -/
def encodeDrv (d : Drv) : List Char :=
  (("Derive(")).toList ++
  encodeListOf encodeOutput d.outputs ++
  ',' :: encodeListOf encodeInputDrv d.inputDrvs ++
  ',' :: encodeListOf encodeString d.inputSrcs ++
  ',' :: encodeString d.platform ++
  ',' :: encodeString d.builder ++
  ',' :: encodeListOf encodeString d.builderArgs ++
  ',' :: encodeListOf encodePairSS d.env ++ [')']

/-- A concrete derivation exercising every field of the grammar. -/
def c7Drv : Drv :=
  { outputs := [{ key := "out", path := "/o", hashAlgo := "", hash := "" }],
    inputDrvs := [{ path := "/i.drv", outputs := ["out"] }],
    inputSrcs := ["/s"],
    platform := "x86_64-linux",
    builder := "/bin/sh",
    builderArgs := ["-e"],
    env := [("name", "x")] }

/-! ## Store items and the store graph cache (src/lib.rs) -/

/-- `enum StoreItem`. -/
inductive StoreItem where
  | drv (d : Drv)
  | narInfo (n : NarInfo)
  | source (name : String)
  | output (name : String) (deriver : StoreHash)
deriving DecidableEq, Repr

/-- `StoreItem::as_drv`. -/
def StoreItem.asDrv : StoreItem → Option Drv
  | .drv d => some d
  | _ => none

/-- The `HashMap<StoreHash, StoreItem>` inside `struct StoreCache`,
modelled as an association list: `insert` replaces any previous binding
of the key, `lookup` finds the binding of a key. -/
def StoreCache := List (StoreHash × StoreItem)

/-- `HashMap::get`. -/
def StoreCache.lookup : StoreCache → StoreHash → Option StoreItem
  | [], _ => none
  | (k, v) :: rest, h => if k = h then some v else StoreCache.lookup rest h

/-- `HashMap::insert`: the new binding replaces any old binding of the
same key. -/
def StoreCache.insert (c : StoreCache) (h : StoreHash) (v : StoreItem) : StoreCache :=
  (h, v) :: (c.filter (fun e => decide (e.1 ≠ h)))

/-- `HashMap::contains_key`. -/
def StoreCache.containsKey (c : StoreCache) (h : StoreHash) : Bool :=
  (c.lookup h).isSome

/-- The keys of the cache. -/
def StoreCache.keys (c : StoreCache) : List StoreHash := c.map Prod.fst

instance : DecidableEq StoreCache :=
  fun a b => List.hasDecEq a b

instance : Membership (StoreHash × StoreItem) StoreCache :=
  inferInstanceAs (Membership (StoreHash × StoreItem) (List (StoreHash × StoreItem)))

/-! ## Build-time closure discovery (src/lib.rs, lines 98-129) -/

/-- One pending piece of `discover_build_time_closure` work: a recursive
`discover(hash, drv)` call, or the resolution of one input-derivation
reference (reuse the cached recipe when the entry at that path's hash is
a `Drv`, otherwise read and parse the file at that path). -/
inductive DiscoverTask where
  | reg (h : StoreHash) (drv : Drv)
  | inp (i : InputDrv)
deriving DecidableEq, Repr

/-- Lines 105-110: register each input source path under its hash. -/
def insertSources (c : StoreCache) (srcs : List String) : StoreCache :=
  srcs.foldl (fun acc path =>
    let hn := StoreHash.splitPath path
    acc.insert hn.1 (.source hn.2)) c

/-- Lines 112-117: register each declared output under its hash,
pointing back at the registering recipe's hash. -/
def insertOutputs (h : StoreHash) (c : StoreCache) (outs : List DrvOutput) : StoreCache :=
  outs.foldl (fun acc o =>
    let hn := StoreHash.splitPath o.path
    acc.insert hn.1 (.output hn.2 h)) c

/-- `discover_build_time_closure` in worklist form with explicit fuel,
preserving the source's exact order of operations: return immediately
when the hash is present, otherwise register the recipe, insert its
input sources, insert its declared outputs, then resolve and recurse
into each input derivation in turn.  `fs` is the filesystem collaborator
behind `Drv::read_from`; a path that cannot be read or parsed aborts the
program (`expect`), modelled as `none`, as is running out of fuel. -/
def discoverGo (fs : String → Option Drv) : Nat → List DiscoverTask → StoreCache → Option StoreCache
  | _, [], c => some c
  | 0, _ :: _, _ => none
  | fuel + 1, .reg h drv :: rest, c =>
    if c.containsKey h then discoverGo fs fuel rest c
    else
      let c1 := c.insert h (.drv drv)
      let c2 := insertSources c1 drv.inputSrcs
      let c3 := insertOutputs h c2 drv.outputs
      discoverGo fs fuel (drv.inputDrvs.map .inp ++ rest) c3
  | fuel + 1, .inp i :: rest, c =>
    let hp := StoreHash.fromPath i.path
    match (c.lookup hp).bind StoreItem.asDrv with
    | some d => discoverGo fs fuel (.reg hp d :: rest) c
    | none =>
      match fs i.path with
      | some d => discoverGo fs fuel (.reg hp d :: rest) c
      | none => none

/-- `StoreCache::discover_build_time_closure(hash, drv)`. -/
def discover (fs : String → Option Drv) (fuel : Nat) (h : StoreHash) (drv : Drv)
    (c : StoreCache) : Option StoreCache :=
  discoverGo fs fuel [.reg h drv] c

/-- A sequence of top-level `discover` calls. -/
def discoverAll (fs : String → Option Drv) (fuel : Nat) :
    List (StoreHash × Drv) → StoreCache → Option StoreCache
  | [], c => some c
  | (h, d) :: rest, c =>
    match discover fs fuel h d c with
    | some c1 => discoverAll fs fuel rest c1
    | none => none

/-! ## Availability fetcher (src/lib.rs, lines 131-201) -/

/-- One HTTP exchange as the fetcher sees it: a transport error
(a `reqwest::Error` out of `send()` or `bytes()`), or a status code
with a response body. -/
inductive HttpResponse where
  | transportErr
  | ok (status : Nat) (body : List Char)
deriving DecidableEq, Repr

/-- The inner `async fn fetch_narinfo`: `none` models the transport
error propagated by `?`; `some none` is the absent result (HTTP 404
status, or whatever `NarInfo::from` maps to `None`); `some (some n)` is
a decoded record. -/
def fetchNarinfoOnce : HttpResponse → Option (Option NarInfo)
  | .transportErr => none
  | .ok status body => if status = 404 then some none else some (NarInfo.from body)

/-- Outcome of the per-root attempt loop of `fetch_first_narinfo`:
a decoded record (`return Ok((hash, Some(narinfo)))`), or moving on to
the next cache root (`continue 'next_cache`, or falling out of the loop
with the attempt budget exhausted). -/
inductive RootOutcome where
  | found (n : NarInfo)
  | moveOn
deriving DecidableEq, Repr

/-- The attempt loop of `fetch_first_narinfo` against one cache root.
`net a` is the network's response to attempt number `a`; `remaining`
counts the attempts left of `max_attempts`; `delay` is the current
backoff delay.  Returns the outcome, the waits performed (the argument
of each `delay_for`, performed only after a failed attempt, after which
the delay doubles), and the number of attempts issued. -/
def runAttempts (net : Nat → HttpResponse) : Nat → Nat → Nat → RootOutcome × List Nat × Nat
  | _, 0, _ => (.moveOn, [], 0)
  | a, remaining + 1, delay =>
    match fetchNarinfoOnce (net a) with
    | some (some n) => (.found n, [], 1)
    | some none => (.moveOn, [], 1)
    | none =>
      let r := runAttempts net (a + 1) remaining (delay * 2)
      (r.1, delay :: r.2.1, r.2.2 + 1)

/-- `fetch_first_narinfo`: try each cache root in order, each with a
fresh attempt budget and the backoff delay reset to 64; the first
decoded record wins; exhausting every root resolves to
`Ok((hash, None))`.  The function never takes the error case of its
`Result` type.  Alongside the source's return value the model carries
the trace: all waits and the total attempt count. -/
def fetchFirstNarinfo (h : StoreHash) : List (Nat → HttpResponse) → Nat →
    Except Unit (StoreHash × Option NarInfo) × List Nat × Nat
  | [], _ => (.ok (h, none), [], 0)
  | root :: roots, maxAttempts =>
    match runAttempts root 0 maxAttempts 64 with
    | (.found n, ds, q) => (.ok (h, some n), ds, q)
    | (.moveOn, ds, q) =>
      let r := fetchFirstNarinfo h roots maxAttempts
      (r.1, ds ++ r.2.1, q + r.2.2)

/-- One step of the merge loop of `fetch_narinfo` (lines 186-198):
`fetched` is incremented for every drained result; a vacant entry is
inserted, an existing `Output` entry is upgraded to `NarInfo`, and any
other existing kind is reported as a duplicate (`warn!`) and left
untouched. -/
def mergeOne (st : StoreCache × Nat) (r : StoreHash × NarInfo) : StoreCache × Nat :=
  let fetched := st.2 + 1
  match st.1.lookup r.1 with
  | none => (st.1.insert r.1 (.narInfo r.2), fetched)
  | some (.output _ _) => (st.1.insert r.1 (.narInfo r.2), fetched)
  | some _ => (st.1, fetched)

/-- The whole merge loop over the drained results. -/
def mergeAll (rs : List (StoreHash × NarInfo)) (c : StoreCache) : StoreCache × Nat :=
  rs.foldl mergeOne (c, 0)

/-- Lines 132-137: the hashes currently recorded as `Output` items —
the candidates the fetch stage looks up. -/
def outputHashes (c : StoreCache) : List StoreHash :=
  c.filterMap (fun e => match e.2 with
    | .output _ _ => some e.1
    | _ => none)

/-- The results the concurrent stream delivers to the merge loop, given
the per-hash resolution `oracle` (the `Option NarInfo` that
`fetch_first_narinfo` produced for that hash): one result per output
hash that resolved to a record.  `buffer_unordered` delivers them in an
arbitrary completion order; the theorems quantify over any permutation
of this list. -/
def fetchResults (c : StoreCache) (oracle : StoreHash → Option NarInfo) :
    List (StoreHash × NarInfo) :=
  (outputHashes c).filterMap (fun h => (oracle h).map (fun n => (h, n)))

/-! ## Runtime closure walker (src/lib.rs, lines 213-238) -/

/-- `InputDrv::resolve`: the concrete output paths of this input
recipe, found by looking up each requested output key in the recipe
recorded at the input path's hash (`find_output` misses are skipped by
`flat_map`); the source panics (`panic!()`) when the entry at that hash
is not a `Drv`, modelled as `none`. -/
def InputDrv.resolve (i : InputDrv) (store : StoreCache) : Option (List String) :=
  match store.lookup (StoreHash.fromPath i.path) with
  | some (.drv d) =>
    some (i.outputs.filterMap (fun key => (d.findOutput key).map (fun o => o.path)))
  | _ => none

/-- The resolution of every input recipe of a `Drv` entry, as the
`flat_map` over `InputDrv::resolve` performs it (the source panics at
the first unresolvable input while draining the iterator; the whole
call aborts either way, so resolving up front is observably the
same). -/
def resolveAll (store : StoreCache) (inputs : List InputDrv) : Option (List (List String)) :=
  inputs.mapM (fun i => i.resolve store)

/-- Result of the fuelled walk: `oom` is fuel exhaustion (no
counterpart in the source, whose recursion is unbounded), `panicked`
is the `panic!()` inside `InputDrv::resolve` aborting the program,
`ok` carries the visited set. -/
inductive WalkRes where
  | oom
  | panicked
  | ok (visited : Finset StoreHash)

/-- `Closure::add_runtime_closure_of` in worklist form, preserving the
source's depth-first order: a hash already visited is skipped;
otherwise it is inserted into the visited set *before* its expansion is
descended into.  `NarInfo` entries expand to the hashes of their
references, `Output` entries to their deriver, `Drv` entries to the
resolved concrete output paths of their input recipes (an unresolvable
input recipe aborts the walk), and sources or absent hashes are
leaves. -/
def addRuntimeClosure (store : StoreCache) : Nat → Finset StoreHash → List StoreHash → WalkRes
  | _, visited, [] => .ok visited
  | 0, _, _ :: _ => .oom
  | fuel + 1, visited, h :: rest =>
    if h ∈ visited then addRuntimeClosure store fuel visited rest
    else
      let v1 := insert h visited
      match store.lookup h with
      | some (.narInfo n) =>
        addRuntimeClosure store fuel v1 ((n.references.map StoreHash.fromName) ++ rest)
      | some (.output _ deriverHash) =>
        addRuntimeClosure store fuel v1 (deriverHash :: rest)
      | some (.drv d) =>
        match resolveAll store d.inputDrvs with
        | none => .panicked
        | some paths =>
          addRuntimeClosure store fuel v1 ((paths.flatten.map StoreHash.fromPath) ++ rest)
      | _ => addRuntimeClosure store fuel v1 rest

/-- The number of worklist entries one hash can spawn, used to bound
the walk's fuel. -/
def childCount (store : StoreCache) (h : StoreHash) : Nat :=
  match store.lookup h with
  | some (.narInfo n) => n.references.length
  | some (.output _ _) => 1
  | some (.drv d) =>
    match resolveAll store d.inputDrvs with
    | none => 0
    | some paths => paths.flatten.length
  | _ => 0

/-- The key set of the cache as a finset. -/
def keysFinset (c : StoreCache) : Finset StoreHash := c.keys.toFinset

/-- Fuel sufficient for `addRuntimeClosure`, finite for every finite
store: the pending tasks plus, for every not-yet-visited key of the
store, its possible expansion. -/
def walkBound (store : StoreCache) (visited : Finset StoreHash) (tasks : List StoreHash) : Nat :=
  tasks.length + ∑ h ∈ keysFinset store \ visited, (childCount store h + 1)

/-! ## Coverage statistics (src/lib.rs, lines 204-272) -/

/-- `struct CoverageStatistics`. -/
structure CoverageStatistics where
  total : Nat := 0
  found : Nat := 0
  fileSize : Nat := 0
  narSize : Nat := 0
  missing : List String := []
deriving DecidableEq, Repr

/-- `fn process`: classify one hash, recursing from an `Output` entry
into its deriver.  The self-derivation assertion aborts the program
(`assert!`), modelled as `none`; the deriver recursion is fuelled. -/
def processOne (store : StoreCache) : Nat → CoverageStatistics → StoreHash → Option CoverageStatistics
  | 0, _, _ => none
  | fuel + 1, stats, h =>
    match store.lookup h with
    | some (.narInfo n) =>
      some { stats with found := stats.found + 1,
                        fileSize := stats.fileSize + n.fileSize,
                        narSize := stats.narSize + n.narSize }
    | some (.drv d) => some { stats with missing := stats.missing ++ [d.findName] }
    | some (.source _) => some stats
    | some (.output _ deriverHash) =>
      if h = deriverHash then none
      else processOne store fuel stats deriverHash
    | none => some { stats with missing := stats.missing ++ [h.toStr] }

/-- `Vec::dedup`: remove consecutive duplicates. -/
def dedupConsec : List String → List String
  | [] => []
  | [a] => [a]
  | a :: b :: t => if a = b then dedupConsec (b :: t) else a :: dedupConsec (b :: t)

/-- Lexicographic order on byte strings (`Ord` for Rust `String`
compares the underlying bytes). -/
def charListLe : List Char → List Char → Bool
  | [], _ => true
  | _ :: _, [] => false
  | a :: as, b :: bs => if a < b then true else if a = b then charListLe as bs else false

/-- Byte-lexicographic comparison of strings. -/
def strLeb (a b : String) : Bool := charListLe a.toList b.toList

/-- Insert into a sorted list (the inner step of a stable comparison
sort). -/
def orderedInsertStr (a : String) : List String → List String
  | [] => [a]
  | b :: t => if strLeb a b then a :: b :: t else b :: orderedInsertStr a t

/-- `Vec::sort` on strings: a stable comparison sort in byte order,
modelled as insertion sort. -/
def sortStrings : List String → List String
  | [] => []
  | a :: t => orderedInsertStr a (sortStrings t)

/-- `Closure::coverage_statistics`: `total` is the closure's size,
every hash of the closure is classified in turn, and the missing list
is sorted and de-duplicated.  The closure set is modelled as the list
of its elements (`HashSet` iteration order is arbitrary; theorems
quantify over the order where it matters). -/
def coverageStatistics (fuel : Nat) (closure : List StoreHash) (store : StoreCache) :
    Option CoverageStatistics :=
  let stats0 : CoverageStatistics := { total := closure.length }
  match closure.foldlM (fun st h => processOne store fuel st h) stats0 with
  | none => none
  | some s => some { s with missing := dedupConsec (sortStrings s.missing) }

/-! ## Kinds, roles and invariant predicates used by the theorems -/

/-- The kind (variant tag) of a store item. -/
inductive ItemKind where
  | recipeK
  | metadataK
  | sourceK
  | outputK
deriving DecidableEq, Repr

/-- The kind of an item. -/
def StoreItem.kind : StoreItem → ItemKind
  | .drv _ => .recipeK
  | .narInfo _ => .metadataK
  | .source _ => .sourceK
  | .output _ _ => .outputK

/-- The role a hash plays in a consistent store: a recipe file, a
source, or a build output (metadata records describe outputs, so they
sit at output hashes). -/
inductive Role where
  | recipe
  | src
  | out
deriving DecidableEq, Repr

/-- The role an item assigns to the hash it sits at. -/
def StoreItem.role : StoreItem → Role
  | .drv _ => .recipe
  | .narInfo _ => .out
  | .source _ => .src
  | .output _ _ => .out

/-- The referenced paths of a recipe hash to their expected roles:
input sources to source hashes, declared outputs to output hashes,
input derivations to recipe hashes.  This is the store-path
disjointness that holds of real Nix stores, where a hash determines
the item it names. -/
def DrvRoles (R : StoreHash → Role) (d : Drv) : Prop :=
  (∀ p ∈ d.inputSrcs, R (StoreHash.splitPath p).1 = .src) ∧
  (∀ o ∈ d.outputs, R (StoreHash.splitPath o.path).1 = .out) ∧
  (∀ i ∈ d.inputDrvs, R (StoreHash.fromPath i.path) = .recipe)

/-- Every derivation file the filesystem can produce is
role-consistent. -/
def FsCoherent (R : StoreHash → Role) (fs : String → Option Drv) : Prop :=
  ∀ p d, fs p = some d → DrvRoles R d

/-- Every cache entry sits at a hash of its own role. -/
def Agrees (R : StoreHash → Role) (c : StoreCache) : Prop :=
  ∀ h it, c.lookup h = some it → it.role = R h

/-- Every recipe stored in the cache is role-consistent. -/
def DrvsConsistent (R : StoreHash → Role) (c : StoreCache) : Prop :=
  ∀ h d, c.lookup h = some (.drv d) → DrvRoles R d

/-- No metadata entry exists yet (true throughout the discovery phase,
which precedes the fetch phase in the pipeline). -/
def NoMetadata (c : StoreCache) : Prop :=
  ∀ h it, c.lookup h = some it → it.kind ≠ .metadataK

/-- The role discipline a pending discovery task relies on. -/
def TaskRole (R : StoreHash → Role) : DiscoverTask → Prop
  | .reg h d => R h = .recipe ∧ DrvRoles R d
  | .inp i => R (StoreHash.fromPath i.path) = .recipe

/-- Every entry of `c` survives into `c2` with its kind unchanged. -/
def KindsPreserved (c c2 : StoreCache) : Prop :=
  ∀ h it, StoreCache.lookup c h = some it →
    ∃ it2, StoreCache.lookup c2 h = some it2 ∧ it2.kind = it.kind

/-- One build-time closure edge relative to the cache: from a hash
holding a recipe to the hash of one of its input sources, declared
outputs, or input derivations. -/
inductive BuildStep (c : StoreCache) : StoreHash → StoreHash → Prop where
  | src {h d p} : c.lookup h = some (.drv d) → p ∈ d.inputSrcs →
      BuildStep c h (StoreHash.splitPath p).1
  | out {h d o} : c.lookup h = some (.drv d) → o ∈ d.outputs →
      BuildStep c h (StoreHash.splitPath o.path).1
  | inp {h d i} : c.lookup h = some (.drv d) → i ∈ d.inputDrvs →
      BuildStep c h (StoreHash.fromPath i.path)

/-- Closure completeness (the invariant stated at lib.rs line 99):
every recipe entry's input sources, declared outputs and input
derivations are keys of the cache. -/
def ClosureComplete (c : StoreCache) : Prop :=
  ∀ h d, c.lookup h = some (.drv d) →
    (∀ p ∈ d.inputSrcs, (StoreHash.splitPath p).1 ∈ c.keys) ∧
    (∀ o ∈ d.outputs, (StoreHash.splitPath o.path).1 ∈ c.keys) ∧
    (∀ i ∈ d.inputDrvs, StoreHash.fromPath i.path ∈ c.keys)

/-- The input derivation `i` still has pending discovery work in the
worklist. -/
def PendingInput (tasks : List DiscoverTask) (i : InputDrv) : Prop :=
  DiscoverTask.inp i ∈ tasks ∨
  ∃ d, DiscoverTask.reg (StoreHash.fromPath i.path) d ∈ tasks

/-- Mid-run generalization of closure completeness: input-derivation
hashes may instead still be pending in the worklist. -/
def DiscoverInv (c : StoreCache) (tasks : List DiscoverTask) : Prop :=
  ∀ h d, c.lookup h = some (.drv d) →
    (∀ p ∈ d.inputSrcs, (StoreHash.splitPath p).1 ∈ c.keys) ∧
    (∀ o ∈ d.outputs, (StoreHash.splitPath o.path).1 ∈ c.keys) ∧
    (∀ i ∈ d.inputDrvs, StoreHash.fromPath i.path ∈ c.keys ∨ PendingInput tasks i)

/-- The number of cache entries whose binding differs between `c` and
`c2` (counting insertions and upgrades, over the keys of `c2`). -/
def changedCount (c c2 : StoreCache) : Nat :=
  ((c2.keys.filter (fun h => decide (c2.lookup h ≠ c.lookup h)))).length

/-- The exponential backoff waits after `j` consecutive failed
attempts: 64 time-units doubling after each failure. -/
def backoffs (j : Nat) : List Nat :=
  (List.range j).map (fun t => 64 * 2 ^ t)

/-! ## Concrete data for witnesses and counterexamples -/

/-- A 32-character name made of one repeated character. -/
def repName (c : Char) : String := ⟨List.replicate NIX_HASH_LENGTH c⟩

/-- A concrete well-formed narinfo record. -/
def sampleNarInfoBody : List Char :=
  (("StorePath: /nix/store/rgmc4d3spji36n2l1sicm80yq79dpcc2-hello-2.10\nURL: nar/x.nar.xz\nCompression: xz\nFileHash: sha256:a\nFileSize: 123\nNarHash: sha256:b\nNarSize: 456\nReferences: rgmc4d3spji36n2l1sicm80yq79dpcc2-hello-2.10\nSig: cache.nixos.org-1:z\n")).toList

/-- The record `sampleNarInfoBody` decodes to. -/
def sampleNarInfo : NarInfo :=
  { storePath := ("/nix/store/rgmc4d3spji36n2l1sicm80yq79dpcc2-hello-2.10"),
    url := ("nar/x.nar.xz"),
    compression := ("xz"),
    fileHash := ("sha256:a"),
    fileSize := 123,
    narHash := ("sha256:b"),
    narSize := 456,
    references := [("rgmc4d3spji36n2l1sicm80yq79dpcc2-hello-2.10")],
    deriver := none,
    sig := ("cache.nixos.org-1:z") }

/-- A recipe with no `name` env entry (first of two distinct ones). -/
def noNameDrv1 : Drv :=
  { outputs := [], inputDrvs := [], inputSrcs := [], platform := ("p1"),
    builder := (""), builderArgs := [], env := [] }

/-- Another recipe with env entries but no `name` key. -/
def noNameDrv2 : Drv :=
  { outputs := [], inputDrvs := [], inputSrcs := [], platform := ("p2"),
    builder := (""), builderArgs := [], env := [(("out"), ("x"))] }

/-- Two hashes for the unnamed recipes. -/
def hashC : StoreHash := StoreHash.fromName (repName ('c'))
def hashD : StoreHash := StoreHash.fromName (repName ('d'))

/-- A store holding the two distinct unnamed recipes. -/
def noNameStore : StoreCache := [(hashC, .drv noNameDrv1), (hashD, .drv noNameDrv2)]

/-- A source path and an output path for a small concrete recipe. -/
def srcPathW : String := (repName ('s')) ++ ("-src")
def outPathW : String := (repName ('o')) ++ ("-hello")

/-- A small concrete recipe with one source and one output. -/
def drvW : Drv :=
  { outputs := [{ key := ("out"), path := outPathW, hashAlgo := (""), hash := ("") }],
    inputDrvs := [], inputSrcs := [srcPathW], platform := (""),
    builder := (""), builderArgs := [], env := [] }

def hashW : StoreHash := StoreHash.fromName (repName ('w'))

/-- The hashes of `srcPathW` and `outPathW`. -/
def hashSW : StoreHash := StoreHash.fromName (repName ('s'))
def hashOW : StoreHash := StoreHash.fromName (repName ('o'))

/-- A concrete role assignment consistent with `drvW`. -/
def rolesW : StoreHash → Role := fun h =>
  if h = hashSW then .src else if h = hashOW then .out else .recipe

/-- The cache produced by discovering `drvW` from the empty cache. -/
def discoveredW : StoreCache :=
  [(StoreHash.fromName (repName ('o')), .output ("hello") hashW),
   (StoreHash.fromName (repName ('s')), .source ("src")),
   (hashW, .drv drvW)]

/-- Paths of two concrete derivation files. -/
def pathA3 : String := (repName ('a')) ++ ("-a.drv")
def pathB3 : String := (repName ('b')) ++ ("-b.drv")

def hashA3 : StoreHash := StoreHash.fromPath pathA3
def hashB3 : StoreHash := StoreHash.fromPath pathB3

/-- An output path whose hash collides with the recipe hash of
`pathA3`. -/
def outPathClash : String := (repName ('a')) ++ ("-out")

/-- A recipe with nothing in it, sitting at `pathA3`. -/
def drvA3 : Drv :=
  { outputs := [], inputDrvs := [], inputSrcs := [], platform := (""),
    builder := (""), builderArgs := [], env := [] }

/-- A recipe whose declared output path collides with `hashA3`. -/
def drvB3 : Drv :=
  { outputs := [{ key := ("out"), path := outPathClash, hashAlgo := (""), hash := ("") }],
    inputDrvs := [], inputSrcs := [], platform := (""),
    builder := (""), builderArgs := [], env := [] }

/-- The filesystem holding the two derivation files. -/
def fs3 : String → Option Drv := fun p =>
  if p = pathA3 then some drvA3
  else if p = pathB3 then some drvB3
  else none

/-- A store whose `Output` entries form a reference cycle. -/
def cycStore : StoreCache :=
  [(hashC, .output ("x") hashD), (hashD, .output ("y") hashC)]

/-- A body the metadata grammar rejects. -/
def junkBody : List Char := (("junk")).toList

/-- A network that fails transport once and then reports absent. -/
def c6net : Nat → HttpResponse := fun k =>
  if k = 0 then .transportErr else .ok 404 []

/-! # Theorems -/

/-! ## Basic cache lemmas -/

theorem lookup_filter_ne (c : StoreCache) {k h : StoreHash} (hne : k ≠ h) :
    StoreCache.lookup (c.filter (fun e => decide (e.1 ≠ h))) k = StoreCache.lookup c k := by
  induction c with
  | nil => rfl
  | cons e rest ih =>
    by_cases he : e.1 = h
    · simp only [List.filter_cons, he]
      simpa [StoreCache.lookup, he, Ne.symm hne] using ih
    · simp only [List.filter_cons, decide_eq_true_eq, he, not_false_eq_true, if_true]
      by_cases hk : e.1 = k
      · cases e
        simp_all [StoreCache.lookup]
      · cases e
        simp_all [StoreCache.lookup]

theorem lookup_insert_self (c : StoreCache) (h : StoreHash) (v : StoreItem) :
    StoreCache.lookup (c.insert h v) h = some v := by
  simp [StoreCache.insert, StoreCache.lookup]

theorem lookup_insert_ne (c : StoreCache) {k h : StoreHash} (v : StoreItem) (hne : k ≠ h) :
    StoreCache.lookup (c.insert h v) k = StoreCache.lookup c k := by
  simp only [StoreCache.insert, StoreCache.lookup, Ne.symm hne, if_false]
  exact lookup_filter_ne c hne

theorem lookup_insert (c : StoreCache) (k h : StoreHash) (v : StoreItem) :
    StoreCache.lookup (c.insert h v) k = if h = k then some v else StoreCache.lookup c k := by
  by_cases hk : h = k
  · subst hk
    simp [lookup_insert_self]
  · simp only [hk, if_false]
    exact lookup_insert_ne c v (fun hh => hk hh.symm)

theorem lookup_some_mem_keys {c : StoreCache} {h : StoreHash} {it : StoreItem}
    (hl : StoreCache.lookup c h = some it) : h ∈ c.keys := by
  induction c with
  | nil => simp [StoreCache.lookup] at hl
  | cons e rest ih =>
    rcases e with ⟨k, v⟩
    by_cases hk : k = h
    · subst hk
      simp [StoreCache.keys]
    · simp only [StoreCache.lookup, hk, if_false] at hl
      simpa [StoreCache.keys] using Or.inr (by simpa [StoreCache.keys] using ih hl)

theorem mem_keys_lookup {c : StoreCache} {h : StoreHash} (hm : h ∈ c.keys) :
    ∃ it, StoreCache.lookup c h = some it := by
  induction c with
  | nil => simp [StoreCache.keys] at hm
  | cons e rest ih =>
    rcases e with ⟨k, v⟩
    by_cases hk : k = h
    · exact ⟨v, by simp [StoreCache.lookup, hk]⟩
    · simp only [StoreCache.keys, List.map_cons, List.mem_cons] at hm
      rcases hm with hm | hm

      · exact absurd hm.symm hk
      · simpa [StoreCache.lookup, hk] using ih (by simpa [StoreCache.keys] using hm)

theorem mem_keys_insert {c : StoreCache} {a h : StoreHash} (v : StoreItem)
    (ha : a ∈ c.keys) : a ∈ (StoreCache.insert c h v).keys := by
  by_cases hah : a = h
  · subst hah
    exact lookup_some_mem_keys (lookup_insert_self c a v)
  · exact lookup_some_mem_keys (by
      rw [lookup_insert_ne c v hah]
      exact (mem_keys_lookup ha).choose_spec)

theorem mem_keys_insert_self (c : StoreCache) (h : StoreHash) (v : StoreItem) :
    h ∈ (StoreCache.insert c h v).keys :=
  lookup_some_mem_keys (lookup_insert_self c h v)

/-! ## Sorting and dedup lemmas -/

theorem perm_orderedInsertStr (a : String) (l : List String) :
    (orderedInsertStr a l).Perm (a :: l) := by
  induction l with
  | nil => simp [orderedInsertStr]
  | cons b t ih =>
    by_cases hle : strLeb a b
    · simp [orderedInsertStr, hle]
    · simp only [orderedInsertStr, hle, Bool.false_eq_true, if_false]
      exact ((ih.cons b).trans (List.Perm.swap a b t))

theorem perm_sortStrings (l : List String) : (sortStrings l).Perm l := by
  induction l with
  | nil => simp [sortStrings]
  | cons a t ih =>
    exact (perm_orderedInsertStr a (sortStrings t)).trans (ih.cons a)

theorem dedupConsec_all_eq (a : String) :
    ∀ l : List String, l ≠ [] → (∀ x ∈ l, x = a) → dedupConsec l = [a] := by
  intro l
  induction l with
  | nil => intro h; exact absurd rfl h
  | cons b t ih =>
    intro _ hall
    match t, ih with
    | [], _ =>
      simpa [dedupConsec] using hall b (by simp)
    | c :: t2, ih =>
      have hb : b = a := hall b (by simp)
      have hc : c = a := hall c (by simp)
      have : dedupConsec (c :: t2) = [a] :=
        ih (by simp) (fun x hx => hall x (List.mem_cons_of_mem b hx))
      simpa [dedupConsec, hb, hc] using this

/-! ## Claim C1: the cache-metadata decoder -/

/-- Claim C1, counterexample: the body `garbage` is not the 3-byte
sentinel and is rejected by the record grammar, yet `NarInfo::from`
returns `None` — the same absent value as the sentinel — instead of
failing with a distinct metadata error (the decoder has no error
channel at all). -/
theorem c1_counterexample :
    NarInfo.from ((("garbage")).toList) = none ∧
    (("garbage")).toList ≠ (("404")).toList ∧
    narinfoP ((("garbage")).toList) = .err :=
  ⟨by decide, by decide, by decide⟩

/-- Claim C1, amended: `NarInfo::from` returns `Some(metadata)` when
the body parses as a well-formed record, `None` when the body is the
3-byte sentinel `404`, and also `None` — not an error — for every body
the grammar rejects. -/
theorem c1_from_trichotomy (body : List Char) :
    (body = (("404")).toList → NarInfo.from body = none) ∧
    (∀ rest info, body ≠ (("404")).toList → narinfoP body = .ok rest info →
      NarInfo.from body = some info) ∧
    ((narinfoP body = .err ∨ narinfoP body = .incomplete) → NarInfo.from body = none) := by
  refine ⟨?_, ?_, ?_⟩
  · intro hb
    simp [NarInfo.from, hb]
  · intro rest info hne hok
    have hne2 : ¬ body = ['4', '0', '4'] := by
      intro hh
      exact hne (by rw [hh]; decide)
    simp [NarInfo.from, hne2, hok]
  · intro hfail
    by_cases hb : body = (("404")).toList
    · simp [NarInfo.from, hb]
    · rcases hfail with hf | hf <;> simp [NarInfo.from, hb, hf]

/-- Claim C1, witness: the trichotomy at concrete bodies — the sentinel
body maps to `None` and a concrete well-formed record decodes. -/
theorem c1_from_trichotomy_witness :
    NarInfo.from ((("404")).toList) = none ∧
    NarInfo.from sampleNarInfoBody = some sampleNarInfo :=
  ⟨(c1_from_trichotomy ((("404")).toList)).1 rfl,
   (c1_from_trichotomy sampleNarInfoBody).2.1 [] sampleNarInfo (by decide) (by decide)⟩

/-! ## Claim C10: unnamed recipes collapse to a single `unknown` -/

theorem findName_of_no_name {d : Drv} (h : ∀ kv ∈ d.env, kv.1 ≠ ("name")) :
    d.findName = ("unknown"):= by
  have hnone : d.env.find? (fun kv => kv.1 == ("name")) = none := by
    rw [List.find?_eq_none]
    intro kv hkv
    simpa using h kv hkv
  simp [Drv.findName, hnone]

theorem foldlM_processOne_missing (store : StoreCache) (fuel : Nat) :
    ∀ (closure : List StoreHash) (st : CoverageStatistics) (s : CoverageStatistics),
      (∀ h ∈ closure, ∃ d, StoreCache.lookup store h = some (.drv d) ∧
        ∀ kv ∈ d.env, kv.1 ≠ ("name")) →
      closure.foldlM (fun st h => processOne store fuel st h) st = some s →
      s.missing = st.missing ++ List.replicate closure.length (("unknown")) := by
  intro closure
  induction closure with
  | nil =>
    intro st s _ hfold
    simp only [List.foldlM_nil] at hfold
    cases hfold
    simp
  | cons h t ih =>
    intro st s hall hfold
    rcases hall h (by simp) with ⟨d, hld, hnm⟩
    rcases fuel with _ | fuel2
    · simp [List.foldlM_cons, processOne] at hfold
    · simp only [List.foldlM_cons, processOne, hld, Option.bind_eq_bind,
        Option.some_bind] at hfold
      have := ih _ s (fun x hx => hall x (List.mem_cons_of_mem h hx)) hfold
      rw [this]
      simp [findName_of_no_name hnm, List.replicate_succ]

/-- Claim C10: a recipe whose env has no `name` key gets the human name
`unknown`; consequently any non-empty closure made up of such missing
recipes produces, after sorting and de-duplication, the single missing
entry `unknown`. -/
theorem c10_unknown_collapses :
    (∀ d : Drv, (∀ kv ∈ d.env, kv.1 ≠ ("name")) → d.findName = ("unknown")) ∧
    (∀ (store : StoreCache) (closure : List StoreHash) (fuel : Nat) (s : CoverageStatistics),
      closure ≠ [] →
      (∀ h ∈ closure, ∃ d, StoreCache.lookup store h = some (.drv d) ∧
        ∀ kv ∈ d.env, kv.1 ≠ ("name")) →
      coverageStatistics fuel closure store = some s →
      s.missing = [("unknown")]) := by
  constructor
  · intro d hd
    exact findName_of_no_name hd
  · intro store closure fuel s hne hall hcov
    simp only [coverageStatistics] at hcov
    rcases hfold : closure.foldlM (fun st h => processOne store fuel st h)
        ({ total := closure.length } : CoverageStatistics) with _ | s1
    · rw [hfold] at hcov
      simp at hcov
    · rw [hfold] at hcov
      simp only [Option.some.injEq] at hcov
      have hmiss : s1.missing = List.replicate closure.length (("unknown")) := by
        simpa using foldlM_processOne_missing store fuel closure _ s1 hall hfold
      have hlen : closure.length ≠ 0 := by
        simpa [List.length_eq_zero] using hne
      have hsp : (sortStrings s1.missing).Perm s1.missing := perm_sortStrings _
      have hall2 : ∀ x ∈ sortStrings s1.missing, x = ("unknown") := by
        intro x hx
        have := hsp.mem_iff.mp hx
        rw [hmiss] at this
        exact List.eq_of_mem_replicate this
      have hne2 : sortStrings s1.missing ≠ [] := by
        intro hemp
        have := hsp.length_eq
        rw [hemp, hmiss] at this
        simp at this
        exact hlen this.symm
      rw [← hcov]
      simpa using dedupConsec_all_eq (("unknown")) _ hne2 hall2

/-- Claim C10, witness: two distinct unnamed recipes in a two-element
closure collapse into the single missing entry `unknown`. -/
theorem c10_unknown_collapses_witness :
    ({ total := 2, found := 0, fileSize := 0, narSize := 0,
       missing := [("unknown")] } : CoverageStatistics).missing = [("unknown")] := by
  refine c10_unknown_collapses.2 noNameStore [hashC, hashD] 1 _ (by decide) ?_ (by decide)
  intro h hh
  simp only [List.mem_cons, List.not_mem_nil, or_false] at hh
  rcases hh with rfl | rfl
  · exact ⟨noNameDrv1, by decide, by decide⟩
  · exact ⟨noNameDrv2, by decide, by decide⟩

/-! ## Discovery lemmas -/

theorem mem_keys_insertSources {a : StoreHash} :
    ∀ (srcs : List String) (c : StoreCache), a ∈ c.keys → a ∈ (insertSources c srcs).keys := by
  intro srcs
  induction srcs with
  | nil => intro c hc; exact hc
  | cons p t ih =>
    intro c hc
    simpa [insertSources] using ih _ (mem_keys_insert _ hc)

theorem mem_keys_insertOutputs {a : StoreHash} (h : StoreHash) :
    ∀ (outs : List DrvOutput) (c : StoreCache), a ∈ c.keys → a ∈ (insertOutputs h c outs).keys := by
  intro outs
  induction outs with
  | nil => intro c hc; exact hc
  | cons o t ih =>
    intro c hc
    simpa [insertOutputs] using ih _ (mem_keys_insert _ hc)

theorem discoverGo_keys_mono (fs : String → Option Drv) :
    ∀ (fuel : Nat) (tasks : List DiscoverTask) (c c' : StoreCache),
      discoverGo fs fuel tasks c = some c' → ∀ a ∈ c.keys, a ∈ c'.keys := by
  intro fuel
  induction fuel with
  | zero =>
    intro tasks c c' hrun a ha
    cases tasks with
    | nil => cases hrun; exact ha
    | cons t rest => simp [discoverGo] at hrun
  | succ fuel ih =>
    intro tasks c c' hrun a ha
    cases tasks with
    | nil => cases hrun; exact ha
    | cons t rest =>
      cases t with
      | reg h drv =>
        by_cases hc : c.containsKey h
        · simp only [discoverGo, hc, if_true] at hrun
          exact ih rest c c' hrun a ha
        · simp only [discoverGo, hc, Bool.false_eq_true, if_false] at hrun
          exact ih _ _ _ hrun a
            (mem_keys_insertOutputs h _ _ (mem_keys_insertSources _ _ (mem_keys_insert _ ha)))
      | inp i =>
        simp only [discoverGo] at hrun
        rcases hcase : (StoreCache.lookup c (StoreHash.fromPath i.path)).bind StoreItem.asDrv with
          _ | d
        · rw [hcase] at hrun
          rcases hfs : fs i.path with _ | d2
          · rw [hfs] at hrun
            cases hrun
          · rw [hfs] at hrun
            exact ih _ _ _ hrun a ha
        · rw [hcase] at hrun
          exact ih _ _ _ hrun a ha

theorem discover_self_mem_keys {fs : String → Option Drv} {fuel : Nat} {h : StoreHash}
    {drv : Drv} {c c' : StoreCache} (hrun : discover fs fuel h drv c = some c') :
    h ∈ c'.keys := by
  cases fuel with
  | zero => simp [discover, discoverGo] at hrun
  | succ fuel =>
    by_cases hc : c.containsKey h
    · rcases Option.isSome_iff_exists.mp (by simpa [StoreCache.containsKey] using hc) with ⟨it, hit⟩
      exact discoverGo_keys_mono fs _ _ _ _ hrun h (lookup_some_mem_keys hit)
    · simp only [discover, discoverGo, hc, Bool.false_eq_true, if_false] at hrun
      exact discoverGo_keys_mono fs _ _ _ _ hrun h
        (mem_keys_insertOutputs h _ _ (mem_keys_insertSources _ _ (mem_keys_insert_self _ _ _)))

/-! ## Claim C8: discovery is idempotent -/

/-- Claim C8: after a completed `discover(hash, drv)` call, repeating
the call with the same hash and recipe (and any remaining fuel) returns
the cache unchanged: the hash is already a key, so the memoization
guard returns immediately. -/
theorem c8_discover_idempotent (fs : String → Option Drv) (fuel : Nat) (h : StoreHash)
    (drv : Drv) (c c' : StoreCache) (hrun : discover fs fuel h drv c = some c') :
    ∀ fuel2 : Nat, discover fs (fuel2 + 1) h drv c' = some c' := by
  intro fuel2
  have hk : h ∈ c'.keys := discover_self_mem_keys hrun
  rcases mem_keys_lookup hk with ⟨it, hit⟩
  have hc : StoreCache.containsKey c' h = true := by
    simp [StoreCache.containsKey, hit]
  cases fuel2 <;> simp [discover, discoverGo, hc]

/-- Claim C8, witness: a concrete recipe with one source and one output
discovered from the empty cache; the second call returns the discovered
cache unchanged. -/
theorem c8_discover_idempotent_witness :
    discover (fun _ => none) 1 hashW drvW discoveredW = some discoveredW :=
  c8_discover_idempotent (fun _ => none) 2 hashW drvW [] discoveredW (by decide) 0

/-! ## Claim C3: kind changes of cache entries -/

/-- Claim C3, counterexample: two discover calls, each with a hash
matching its recipe file; the second recipe declares an output whose
path hash collides with the first recipe's hash, and the second call
overwrites the first call's `Drv` entry with an `Output` entry — a
conflicting kind. -/
theorem c3_counterexample :
    discover fs3 2 hashA3 drvA3 [] = some [(hashA3, .drv drvA3)] ∧
    StoreCache.lookup [(hashA3, .drv drvA3)] hashA3 = some (.drv drvA3) ∧
    discover fs3 2 hashB3 drvB3 [(hashA3, .drv drvA3)] =
      some [(hashA3, .output ("out") hashB3), (hashB3, .drv drvB3)] ∧
    StoreCache.lookup [(hashA3, .output ("out") hashB3), (hashB3, .drv drvB3)] hashA3 =
      some (.output ("out") hashB3) ∧
    StoreItem.kind (.output ("out") hashB3) ≠ StoreItem.kind (.drv drvA3) :=
  ⟨by decide, by decide, by decide, by decide, by decide⟩

/-! ## Attempt-loop lemmas -/

theorem backoffDouble (d j : Nat) :
    d :: (List.range j).map (fun t => d * 2 * 2 ^ t) =
    (List.range (j + 1)).map (fun t => d * 2 ^ t) := by
  rw [List.range_succ_eq_map, List.map_cons, List.map_map]
  have h1 : d * 2 ^ 0 = d := by ring
  rw [h1]
  congr 1
  apply List.map_congr_left
  intro t _
  simp only [Function.comp_apply, Nat.pow_succ]
  ring

theorem runAttempts_firstStop (net : Nat → HttpResponse) :
    ∀ (j a rem d : Nat) (x : Option NarInfo), j < rem →
      (∀ k < j, net (a + k) = .transportErr) →
      fetchNarinfoOnce (net (a + j)) = some x →
      runAttempts net a rem d =
        ((match x with | some n => RootOutcome.found n | none => RootOutcome.moveOn),
         (List.range j).map (fun t => d * 2 ^ t), j + 1) := by
  intro j
  induction j with
  | zero =>
    intro a rem d x hj _ hstop
    rcases rem with _ | rem2
    · omega
    · simp only [Nat.add_zero] at hstop
      rcases x with _ | n <;> simp [runAttempts, hstop]
  | succ j ih =>
    intro a rem d x hj herr hstop
    rcases rem with _ | rem2
    · omega
    · have ha : net a = .transportErr := by
        simpa using herr 0 (Nat.succ_pos j)
      have herr2 : ∀ k < j, net (a + 1 + k) = .transportErr := by
        intro k hk
        have := herr (k + 1) (by omega)
        simpa [Nat.add_comm, Nat.add_assoc, Nat.add_left_comm] using this
      have hstop2 : fetchNarinfoOnce (net (a + 1 + j)) = some x := by
        have : a + 1 + j = a + (j + 1) := by omega
        rw [this]
        exact hstop
      have hrec := ih (a + 1) rem2 (d * 2) x (by omega) herr2 hstop2
      simp only [runAttempts, ha, fetchNarinfoOnce, hrec]
      rw [backoffDouble d j]

theorem runAttempts_allErr (net : Nat → HttpResponse) :
    ∀ (rem a d : Nat), (∀ k < rem, net (a + k) = .transportErr) →
      runAttempts net a rem d =
        (.moveOn, (List.range rem).map (fun t => d * 2 ^ t), rem) := by
  intro rem
  induction rem with
  | zero => intro a d _; simp [runAttempts]
  | succ rem ih =>
    intro a d herr
    have ha : net a = .transportErr := by simpa using herr 0 (Nat.succ_pos rem)
    have herr2 : ∀ k < rem, net (a + 1 + k) = .transportErr := by
      intro k hk
      have := herr (k + 1) (by omega)
      simpa [Nat.add_comm, Nat.add_assoc, Nat.add_left_comm] using this
    have hrec := ih (a + 1) (d * 2) herr2
    simp only [runAttempts, ha, fetchNarinfoOnce, hrec]
    rw [backoffDouble d rem]

theorem fetchFirst_allMoveOn (h : StoreHash) :
    ∀ (roots : List (Nat → HttpResponse)) (maxAttempts : Nat),
      (∀ net ∈ roots, (runAttempts net 0 maxAttempts 64).1 = .moveOn) →
      (fetchFirstNarinfo h roots maxAttempts).1 = .ok (h, none) := by
  intro roots
  induction roots with
  | nil => intro maxAttempts _; rfl
  | cons root rest ih =>
    intro maxAttempts hall
    have hroot : (runAttempts root 0 maxAttempts 64).1 = .moveOn :=
      hall root (by simp)
    rcases hr : runAttempts root 0 maxAttempts 64 with ⟨o, ds, q⟩
    rw [hr] at hroot
    simp only at hroot
    subst hroot
    simp only [fetchFirstNarinfo, hr]
    exact ih maxAttempts (fun net hn => hall net (List.mem_cons_of_mem root hn))

/-! ## Claim C6: the per-candidate root/retry/backoff discipline -/

/-- Claim C6: for a single-candidate lookup — (i) after `j` transport
errors, an absent result (HTTP 404 status or the `404` body sentinel)
at attempt `j` ends the root immediately with only `j + 1` requests
issued and only the `j` backoff waits already spent, independent of the
remaining attempt budget; (ii) a decoded record likewise ends the loop;
(iii) a root that fails transport on every attempt consumes exactly
`max_attempts` attempts with waits 64, 128, 256, …, doubling after each
failure, all against the same root; (iv) when every root's loop moves
on, the candidate resolves to `Ok((hash, None))`. -/
theorem c6_retry_discipline :
    (∀ (net : Nat → HttpResponse) (maxA j st : Nat) (body : List Char),
      j < maxA → (∀ k < j, net k = .transportErr) →
      (net j = .ok 404 body ∨ net j = .ok st ((("404")).toList)) →
      runAttempts net 0 maxA 64 = (.moveOn, backoffs j, j + 1)) ∧
    (∀ (net : Nat → HttpResponse) (maxA j : Nat) (n : NarInfo),
      j < maxA → (∀ k < j, net k = .transportErr) →
      fetchNarinfoOnce (net j) = some (some n) →
      runAttempts net 0 maxA 64 = (.found n, backoffs j, j + 1)) ∧
    (∀ (net : Nat → HttpResponse) (maxA : Nat),
      (∀ k < maxA, net k = .transportErr) →
      runAttempts net 0 maxA 64 = (.moveOn, backoffs maxA, maxA)) ∧
    (∀ (h : StoreHash) (roots : List (Nat → HttpResponse)) (maxA : Nat),
      (∀ net ∈ roots, (runAttempts net 0 maxA 64).1 = .moveOn) →
      (fetchFirstNarinfo h roots maxA).1 = .ok (h, none)) := by
  refine ⟨?_, ?_, ?_, ?_⟩
  · intro net maxA j st body hj herr habs
    have hstop : fetchNarinfoOnce (net j) = some none := by
      rcases habs with hc | hc <;> rw [hc] <;> simp [fetchNarinfoOnce, NarInfo.from]
    have := runAttempts_firstStop net j 0 maxA 64 none hj (by simpa using herr)
      (by simpa using hstop)
    simpa [backoffs] using this
  · intro net maxA j n hj herr hstop
    have := runAttempts_firstStop net j 0 maxA 64 (some n) hj (by simpa using herr)
      (by simpa using hstop)
    simpa [backoffs] using this
  · intro net maxA herr
    have := runAttempts_allErr net maxA 0 64 (by simpa using herr)
    simpa [backoffs] using this
  · intro h roots maxA hall
    exact fetchFirst_allMoveOn h roots maxA hall

/-- Claim C6, witness: a network that errors once and then answers 404
— one backoff wait of 64 and two requests — and a single such root
resolving the candidate to not-found. -/
theorem c6_retry_discipline_witness :
    runAttempts c6net 0 2 64 = (.moveOn, backoffs 1, 1 + 1) ∧
    (fetchFirstNarinfo hashC [c6net] 2).1 = .ok (hashC, none) :=
  ⟨c6_retry_discipline.1 c6net 2 1 0 [] (by decide) (by decide) (by decide),
   c6_retry_discipline.2.2.2 hashC [c6net] 2 (by
     intro net hn
     simp only [List.mem_singleton] at hn
     subst hn
     decide)⟩

/-! ## Claim C5: metadata parse faults during fetch -/

/-- Claim C5, counterexample: with one cache root, an attempt budget of
3 and a network that always answers HTTP 200 with an unparsable body,
the lookup issues exactly one request — the root is not retried up to
the attempt budget, no backoff wait happens, and the loop moves on
immediately, because the parse fault is mapped to the absent result
rather than to a transport-class error. -/
theorem c5_counterexample :
    runAttempts (fun _ => HttpResponse.ok 200 junkBody) 0 3 64 = (.moveOn, [], 1) ∧
    (1 : Nat) ≠ 3 ∧
    NarInfo.from junkBody = none ∧
    narinfoP junkBody = .err :=
  ⟨by decide, by decide, by decide, by decide⟩

/-- Claim C5, amended: a metadata parse fault on a non-404 response
body for one lookup is treated as an authoritative absent result, not
as a transport-class error: the lookup immediately advances to the next
cache root without consuming the remaining attempt budget of the
current root and without any backoff wait, and the fetch stage is never
aborted by such a fault (the per-candidate future always resolves
`Ok`). -/
theorem c5_parse_fault_absent :
    (∀ (net : Nat → HttpResponse) (maxA j st : Nat) (body : List Char),
      j < maxA → (∀ k < j, net k = .transportErr) →
      net j = .ok st body → st ≠ 404 → NarInfo.from body = none →
      runAttempts net 0 maxA 64 = (.moveOn, backoffs j, j + 1)) ∧
    (∀ (h : StoreHash) (roots : List (Nat → HttpResponse)) (maxA : Nat),
      ∃ v ds q, fetchFirstNarinfo h roots maxA = (.ok v, ds, q)) := by
  constructor
  · intro net maxA j st body hj herr hresp hst hparse
    have hstop : fetchNarinfoOnce (net j) = some none := by
      rw [hresp]
      simp [fetchNarinfoOnce, hst, hparse]
    have := runAttempts_firstStop net j 0 maxA 64 none hj (by simpa using herr)
      (by simpa using hstop)
    simpa [backoffs] using this
  · intro h roots
    induction roots with
    | nil => intro maxA; exact ⟨(h, none), [], 0, rfl⟩
    | cons root rest ih =>
      intro maxA
      rcases hr : runAttempts root 0 maxA 64 with ⟨o, ds, q⟩
      cases o with
      | found n => exact ⟨(h, some n), ds, q, by simp [fetchFirstNarinfo, hr]⟩
      | moveOn =>
        rcases ih maxA with ⟨v, ds2, q2, hrec⟩
        refine ⟨v, ds ++ ds2, q + q2, ?_⟩
        simp [fetchFirstNarinfo, hr, hrec]

/-- Claim C5 (amended), witness: a 200 response with an unparsable body
at the very first attempt ends the root with one request and no
waits. -/
theorem c5_parse_fault_absent_witness :
    runAttempts (fun _ => HttpResponse.ok 200 junkBody) 0 3 64 =
      (.moveOn, backoffs 0, 0 + 1) :=
  c5_parse_fault_absent.1 (fun _ => HttpResponse.ok 200 junkBody) 3 0 200 junkBody
    (by decide) (by decide) (by decide) (by decide) (by decide)

/-! ## Merge-count lemmas (claim C2) -/

theorem keys_insert_nodup {c : StoreCache} (h : StoreHash) (v : StoreItem)
    (hc : c.keys.Nodup) : (StoreCache.insert c h v).keys.Nodup := by
  show (h :: (c.filter (fun e => decide (e.1 ≠ h))).map Prod.fst).Nodup
  have hsub : ((c.filter (fun e => decide (e.1 ≠ h))).map Prod.fst).Sublist
      (c.map Prod.fst) := (List.filter_sublist c).map Prod.fst
  refine List.Nodup.cons ?_ (hsub.nodup hc)
  intro hmem
  rcases List.mem_map.mp hmem with ⟨e, hef, hfst⟩
  have hdec := List.of_mem_filter hef
  rw [hfst] at hdec
  simp at hdec

theorem mem_keys_insert_iff {c : StoreCache} {a h : StoreHash} (v : StoreItem) :
    a ∈ (StoreCache.insert c h v).keys ↔ a = h ∨ a ∈ c.keys := by
  show a ∈ h :: (c.filter (fun e => decide (e.1 ≠ h))).map Prod.fst ↔ _
  simp only [List.mem_cons]
  constructor
  · rintro (rfl | hm)
    · exact Or.inl rfl
    · rcases List.mem_map.mp hm with ⟨e, hef, rfl⟩
      exact Or.inr (List.mem_map.mpr ⟨e, List.mem_of_mem_filter hef, rfl⟩)
  · rintro (rfl | hm)
    · exact Or.inl rfl
    · by_cases hah : a = h
      · exact Or.inl hah
      · rcases List.mem_map.mp hm with ⟨e, hec, rfl⟩
        refine Or.inr (List.mem_map.mpr ⟨e, List.mem_filter.mpr ⟨hec, by simpa using hah⟩, rfl⟩)

theorem mem_pair_lookup {c : StoreCache} {h : StoreHash} {it : StoreItem}
    (hnd : c.keys.Nodup) (hm : (h, it) ∈ c) : StoreCache.lookup c h = some it := by
  induction c with
  | nil => cases hm
  | cons e rest ih =>
    rcases e with ⟨k, v⟩
    have hnd2 : (k :: rest.map Prod.fst).Nodup := hnd
    rcases List.mem_cons.mp hm with he | hm2
    · cases he
      simp [StoreCache.lookup]
    · have hk : k ≠ h := by
        intro hkh
        subst hkh
        exact (List.nodup_cons.mp hnd2).1 (List.mem_map.mpr ⟨(k, it), hm2, rfl⟩)
      simp only [StoreCache.lookup, hk, if_false]
      exact ih (List.nodup_cons.mp hnd2).2 hm2

theorem outputHashes_sublist_keys (c : StoreCache) : (outputHashes c).Sublist c.keys := by
  induction c with
  | nil => simp [outputHashes, StoreCache.keys]
  | cons e rest ih =>
    rcases e with ⟨k, v⟩
    cases v with
    | output nm dh =>
      simpa [outputHashes, StoreCache.keys] using ih.cons₂ k
    | drv d => simpa [outputHashes, StoreCache.keys] using ih.cons k
    | narInfo n => simpa [outputHashes, StoreCache.keys] using ih.cons k
    | source s => simpa [outputHashes, StoreCache.keys] using ih.cons k

theorem mem_outputHashes {c : StoreCache} {h : StoreHash} (hm : h ∈ outputHashes c) :
    ∃ nm dh, (h, StoreItem.output nm dh) ∈ c := by
  rcases List.mem_filterMap.mp hm with ⟨e, he, hf⟩
  rcases e with ⟨k, v⟩
  cases v with
  | output nm dh =>
    simp only [Option.some.injEq] at hf
    subst hf
    exact ⟨nm, dh, he⟩
  | drv d => simp at hf
  | narInfo n => simp at hf
  | source s => simp at hf

theorem fetchResults_fst_sublist (c : StoreCache) (oracle : StoreHash → Option NarInfo) :
    ((fetchResults c oracle).map Prod.fst).Sublist (outputHashes c) := by
  unfold fetchResults
  generalize outputHashes c = l
  induction l with
  | nil => simp
  | cons h t ih =>
    rcases ho : oracle h with _ | n
    · simpa [List.filterMap_cons, ho] using ih.cons h
    · simpa [List.filterMap_cons, ho] using ih.cons₂ h

theorem filter_length_flip {α : Type} [DecidableEq α] (p0 p1 : α → Bool) (h0 : α) :
    ∀ {l : List α}, l.Nodup → h0 ∈ l → (∀ x ∈ l, x ≠ h0 → p0 x = p1 x) →
      p0 h0 = true → p1 h0 = false →
      (l.filter p0).length = (l.filter p1).length + 1 := by
  intro l
  induction l with
  | nil => intro _ hm; simp at hm
  | cons a t ih =>
    intro hnd hm hagree h0t h0f
    by_cases hah : a = h0
    · subst hah
      have hnx : a ∉ t := (List.nodup_cons.mp hnd).1
      have hft : t.filter p0 = t.filter p1 := by
        apply List.filter_congr
        intro x hx
        exact hagree x (List.mem_cons_of_mem a hx) (fun hxa => hnx (hxa ▸ hx))
      simp [List.filter_cons, h0t, h0f, hft]
    · have hm2 : h0 ∈ t := by
        rcases List.mem_cons.mp hm with h | h
        · exact absurd h.symm hah
        · exact h
      have hpa : p0 a = p1 a := hagree a (by simp) hah
      have := ih (List.nodup_cons.mp hnd).2 hm2
        (fun x hx hxh => hagree x (List.mem_cons_of_mem a hx) hxh) h0t h0f
      by_cases hp : p1 a
      · simp [List.filter_cons, hp, hpa, this]
      · simp only [Bool.not_eq_true] at hp
        simp [List.filter_cons, hp, hpa, this]

theorem mergeOne_counter (c : StoreCache) (k : Nat) (r : StoreHash × NarInfo) :
    mergeOne (c, k) r = ((mergeOne (c, 0) r).1, k + (mergeOne (c, 0) r).2) := by
  rcases hc : StoreCache.lookup c r.1 with _ | it
  · simp [mergeOne, hc]
  · cases it <;> simp [mergeOne, hc]

theorem foldl_mergeOne_counter :
    ∀ (rs : List (StoreHash × NarInfo)) (c : StoreCache) (k : Nat),
      rs.foldl mergeOne (c, k) =
        ((rs.foldl mergeOne (c, 0)).1, k + (rs.foldl mergeOne (c, 0)).2) := by
  intro rs
  induction rs with
  | nil => intro c k; simp
  | cons r rs ih =>
    intro c k
    have h1 : mergeOne (c, k) r = ((mergeOne (c, 0) r).1, k + (mergeOne (c, 0) r).2) :=
      mergeOne_counter c k r
    have h0 : mergeOne (c, 0) r = ((mergeOne (c, 0) r).1, 0 + (mergeOne (c, 0) r).2) := by
      simp
    calc (r :: rs).foldl mergeOne (c, k)
        = rs.foldl mergeOne (mergeOne (c, k) r) := by simp [List.foldl_cons]
      _ = rs.foldl mergeOne ((mergeOne (c, 0) r).1, k + (mergeOne (c, 0) r).2) := by rw [h1]
      _ = ((rs.foldl mergeOne ((mergeOne (c, 0) r).1, 0)).1,
            k + (mergeOne (c, 0) r).2 + (rs.foldl mergeOne ((mergeOne (c, 0) r).1, 0)).2) := by
            rw [ih]
      _ = ((rs.foldl mergeOne (mergeOne (c, 0) r)).1,
            k + (rs.foldl mergeOne (mergeOne (c, 0) r)).2) := by
            conv_rhs => rw [h0, ih]
            simp [Nat.add_assoc]
      _ = _ := by simp [List.foldl_cons]

theorem mergeAll_spec :
    ∀ (rs : List (StoreHash × NarInfo)) (c : StoreCache),
      c.keys.Nodup →
      (∀ p ∈ rs, ∃ nm dh, StoreCache.lookup c p.1 = some (.output nm dh)) →
      (rs.map Prod.fst).Nodup →
      (mergeAll rs c).1.keys.Nodup ∧
      (∀ p ∈ rs, StoreCache.lookup (mergeAll rs c).1 p.1 = some (.narInfo p.2)) ∧
      (∀ h, h ∉ rs.map Prod.fst →
        StoreCache.lookup (mergeAll rs c).1 h = StoreCache.lookup c h) ∧
      (∀ h, h ∈ (mergeAll rs c).1.keys ↔ h ∈ c.keys) ∧
      (mergeAll rs c).2 = changedCount c (mergeAll rs c).1 := by
  intro rs
  induction rs with
  | nil =>
    intro c hnd _ _
    refine ⟨hnd, by simp, fun h _ => rfl, fun h => Iff.rfl, ?_⟩
    simp only [mergeAll, List.foldl_nil, changedCount]
    have : c.keys.filter (fun h => decide (StoreCache.lookup c h ≠ StoreCache.lookup c h)) = [] := by
      apply List.filter_eq_nil_iff.mpr
      intro a _
      simp
    rw [this]
    rfl
  | cons r rs ih =>
    intro c hnd houts hfst
    rcases r with ⟨h0, n0⟩
    rcases houts (h0, n0) (by simp) with ⟨nm, dh, hl0⟩
    have hstep : mergeOne (c, 0) (h0, n0) = (c.insert h0 (.narInfo n0), 1) := by
      simp [mergeOne, hl0]
    have hfst2 : (h0 :: rs.map Prod.fst).Nodup := by
      rw [List.map_cons] at hfst
      exact hfst
    have hfst0 : h0 ∉ rs.map Prod.fst := (List.nodup_cons.mp hfst2).1
    have hfstr : (rs.map Prod.fst).Nodup := (List.nodup_cons.mp hfst2).2
    set c1 := c.insert h0 (.narInfo n0) with hc1
    have hnd1 : c1.keys.Nodup := keys_insert_nodup h0 _ hnd
    have houts1 : ∀ p ∈ rs, ∃ nm2 dh2, StoreCache.lookup c1 p.1 = some (.output nm2 dh2) := by
      intro p hp
      rcases houts p (List.mem_cons_of_mem _ hp) with ⟨nm2, dh2, hlp⟩
      refine ⟨nm2, dh2, ?_⟩
      rw [hc1, lookup_insert_ne c _ (fun hne => ?_)]
      · exact hlp
      · exact hfst0 (hne ▸ List.mem_map.mpr ⟨p, hp, rfl⟩)
    have ihh := ih c1 hnd1 houts1 hfstr
    have hunfold : mergeAll ((h0, n0) :: rs) c =
        ((mergeAll rs c1).1, 1 + (mergeAll rs c1).2) := by
      simp only [mergeAll, List.foldl_cons, hstep]
      exact foldl_mergeOne_counter rs c1 1
    rcases ihh with ⟨ihnd, ihin, ihout, ihkeys, ihcount⟩
    have hl1self : StoreCache.lookup c1 h0 = some (.narInfo n0) := lookup_insert_self c h0 _
    have hfinal0 : StoreCache.lookup (mergeAll rs c1).1 h0 = some (.narInfo n0) := by
      rw [ihout h0 hfst0]
      exact hl1self
    refine ⟨by rw [hunfold]; exact ihnd, ?_, ?_, ?_, ?_⟩
    · intro p hp
      rcases List.mem_cons.mp hp with hph | hpr
      · cases hph
        rw [hunfold]
        exact hfinal0
      · rw [hunfold]
        exact ihin p hpr
    · intro h hh
      have hh0 : h ≠ h0 := by
        intro hhh
        exact hh (by simp [hhh])
      have hhr : h ∉ rs.map Prod.fst := by
        intro hhh
        exact hh (by simp [hhh])
      rw [hunfold]
      rw [ihout h hhr, hc1, lookup_insert_ne c _ hh0]
    · intro h
      rw [hunfold]
      rw [ihkeys h, hc1, mem_keys_insert_iff]
      constructor
      · rintro (rfl | hm)
        · exact lookup_some_mem_keys hl0
        · exact hm
      · exact Or.inr
    · rw [hunfold]
      simp only
      rw [ihcount]
      have hmem0 : h0 ∈ (mergeAll rs c1).1.keys := by
        rw [ihkeys h0, hc1, mem_keys_insert_iff]
        exact Or.inl rfl
      have hflip := filter_length_flip
        (fun h => decide (StoreCache.lookup (mergeAll rs c1).1 h ≠ StoreCache.lookup c h))
        (fun h => decide (StoreCache.lookup (mergeAll rs c1).1 h ≠ StoreCache.lookup c1 h))
        h0 ihnd hmem0 ?_ ?_ ?_
      · simp only [changedCount]
        omega
      · intro x _ hx
        have hcc : StoreCache.lookup c1 x = StoreCache.lookup c x := by
          rw [hc1]
          exact lookup_insert_ne c _ hx
        simp only [hcc]
      · simp only [decide_eq_true_eq, hfinal0, hl0]
        simp
      · simp only [decide_eq_false_iff_not, hfinal0, hl1self]
        simp

/-! ## Claim C2: the fetch count equals inserted-or-upgraded entries -/

/-- Claim C2: for a cache with unique keys, any completion order of the
fetched results (a permutation of one decoded record per output hash
the oracle resolves), the value the merge loop returns equals the
number of cache entries whose binding the merge actually changed
(inserted or upgraded); every fetched record ends up stored.  In a
run of `fetch_narinfo` every fetched hash was collected as an `Output`
entry, so no merge is ever skipped and each fetched record is an actual
upgrade. -/
theorem c2_fetch_count (c : StoreCache) (oracle : StoreHash → Option NarInfo)
    (rs : List (StoreHash × NarInfo)) (hkeys : c.keys.Nodup)
    (hperm : rs.Perm (fetchResults c oracle)) :
    (mergeAll rs c).2 = changedCount c (mergeAll rs c).1 ∧
    (∀ p ∈ rs, StoreCache.lookup (mergeAll rs c).1 p.1 = some (.narInfo p.2)) := by
  have houts : ∀ p ∈ rs, ∃ nm dh, StoreCache.lookup c p.1 = some (.output nm dh) := by
    intro p hp
    have hpf : p ∈ fetchResults c oracle := hperm.mem_iff.mp hp
    rcases List.mem_filterMap.mp hpf with ⟨h, hh, hf⟩
    rcases ho : oracle h with _ | n
    · rw [ho] at hf
      simp at hf
    · rw [ho] at hf
      have hf2 : (h, n) = p := by simpa using hf
      subst hf2
      rcases mem_outputHashes hh with ⟨nm, dh, hmem⟩
      exact ⟨nm, dh, mem_pair_lookup hkeys hmem⟩
  have hfst : (rs.map Prod.fst).Nodup := by
    have hsub := (fetchResults_fst_sublist c oracle).trans (outputHashes_sublist_keys c)
    have hnd : ((fetchResults c oracle).map Prod.fst).Nodup := hsub.nodup hkeys
    exact ((hperm.map Prod.fst).nodup_iff).mpr hnd
  have := mergeAll_spec rs c hkeys houts hfst
  exact ⟨this.2.2.2.2, this.2.1⟩

/-- Claim C2, witness: one output entry, an oracle resolving it, the
single-result merge: the returned count 1 equals the one changed
(upgraded) entry. -/
theorem c2_fetch_count_witness :
    (mergeAll [(hashC, sampleNarInfo)] [(hashC, .output ("x") hashD)]).2 =
      changedCount [(hashC, .output ("x") hashD)]
        (mergeAll [(hashC, sampleNarInfo)] [(hashC, .output ("x") hashD)]).1 :=
  (c2_fetch_count [(hashC, .output ("x") hashD)]
    (fun h => if h = hashC then some sampleNarInfo else none)
    [(hashC, sampleNarInfo)] (by decide) (by decide)).1

/-! ## Claim C9: the runtime walk terminates -/

theorem addRuntimeClosure_not_oom (store : StoreCache) :
    ∀ (fuel : Nat) (visited : Finset StoreHash) (tasks : List StoreHash),
      walkBound store visited tasks ≤ fuel →
      addRuntimeClosure store fuel visited tasks ≠ .oom := by
  intro fuel
  induction fuel with
  | zero =>
    intro visited tasks hb
    cases tasks with
    | nil => simp [addRuntimeClosure]
    | cons h rest =>
      exfalso
      simp only [walkBound, List.length_cons] at hb
      omega
  | succ fuel ih =>
    intro visited tasks hb
    cases tasks with
    | nil => simp [addRuntimeClosure]
    | cons h rest =>
      have hbS : walkBound store visited (h :: rest) =
          rest.length + 1 + ∑ x ∈ keysFinset store \ visited, (childCount store x + 1) := by
        simp [walkBound]
      by_cases hv : h ∈ visited
      · simp only [addRuntimeClosure, hv, if_true]
        refine ih visited rest ?_
        simp only [walkBound]
        omega
      · simp only [addRuntimeClosure, hv, if_false]
        have hsd : keysFinset store \ insert h visited =
            (keysFinset store \ visited).erase h := Finset.sdiff_insert _ _ _
        rcases hl : StoreCache.lookup store h with _ | it
        · -- absent hash: leaf
          have hnk : h ∉ keysFinset store := by
            intro hmem
            rcases mem_keys_lookup ((List.mem_toFinset).mp hmem) with ⟨it, hit⟩
            rw [hit] at hl
            cases hl
          have hns : h ∉ keysFinset store \ visited := by
            intro hmem
            exact hnk (Finset.mem_sdiff.mp hmem).1
          refine ih (insert h visited) rest ?_
          simp only [walkBound, hsd, Finset.erase_eq_of_not_mem hns]
          omega
        · have hk : h ∈ keysFinset store :=
            (List.mem_toFinset).mpr (lookup_some_mem_keys hl)
          have hks : h ∈ keysFinset store \ visited := Finset.mem_sdiff.mpr ⟨hk, hv⟩
          have hsum : childCount store h + 1 +
              ∑ x ∈ (keysFinset store \ visited).erase h, (childCount store x + 1) =
              ∑ x ∈ keysFinset store \ visited, (childCount store x + 1) :=
            Finset.add_sum_erase (keysFinset store \ visited)
              (fun x => childCount store x + 1) hks
          cases it with
          | narInfo n =>
            have hcc : childCount store h = n.references.length := by
              simp [childCount, hl]
            refine ih (insert h visited) ((n.references.map StoreHash.fromName) ++ rest) ?_
            simp only [walkBound, hsd, List.length_append, List.length_map]
            rw [hbS] at hb
            omega
          | output nm dh =>
            have hcc : childCount store h = 1 := by
              simp [childCount, hl]
            refine ih (insert h visited) (dh :: rest) ?_
            simp only [walkBound, hsd, List.length_cons]
            rw [hbS] at hb
            omega
          | drv d =>
            show (match resolveAll store d.inputDrvs with
              | none => WalkRes.panicked
              | some paths =>
                addRuntimeClosure store fuel (insert h visited)
                  ((paths.flatten.map StoreHash.fromPath) ++ rest)) ≠ WalkRes.oom
            rcases hres : resolveAll store d.inputDrvs with _ | paths
            · intro hcon
              exact WalkRes.noConfusion hcon
            · have hcc : childCount store h = paths.flatten.length := by
                simp only [childCount, hl]
                rw [hres]
              refine ih (insert h visited) ((paths.flatten.map StoreHash.fromPath) ++ rest) ?_
              simp only [walkBound, hsd, List.length_append, List.length_map]
              rw [hbS] at hb
              omega
          | source nm =>
            have hcc : childCount store h = 0 := by
              simp [childCount, hl]
            refine ih (insert h visited) rest ?_
            simp only [walkBound, hsd]
            rw [hbS] at hb
            omega

/-- Claim C9: `add_runtime_closure_of` inserts a hash into the visited
set before descending into its expansion, so on every finite store —
cyclic and diamond-shaped reference graphs included — the walk needs
only finitely much fuel: any fuel of at least `walkBound` (the pending
tasks plus one expansion per unvisited store key) never runs out. -/
theorem c9_walk_terminates (store : StoreCache) (visited : Finset StoreHash)
    (h : StoreHash) (fuel : Nat) (hf : walkBound store visited [h] ≤ fuel) :
    addRuntimeClosure store fuel visited [h] ≠ .oom :=
  addRuntimeClosure_not_oom store fuel visited [h] hf

/-- Claim C9, witness: a two-element store whose `Output` entries form
a reference cycle; the walk from one of them completes within the
bound. -/
theorem c9_walk_terminates_witness :
    addRuntimeClosure cycStore 5 ∅ [hashC] ≠ .oom :=
  c9_walk_terminates cycStore ∅ hashC 5 (by decide)

/-! ## Closure-completeness lemmas (claim C4) -/

theorem lookup_drv_insertSources :
    ∀ (srcs : List String) (c : StoreCache) {h : StoreHash} {d : Drv},
      StoreCache.lookup (insertSources c srcs) h = some (.drv d) →
      StoreCache.lookup c h = some (.drv d) := by
  intro srcs
  induction srcs with
  | nil => intro c h d hl; exact hl
  | cons p t ih =>
    intro c h d hl
    have hl2 := ih _ hl
    rw [lookup_insert] at hl2
    by_cases hph : (StoreHash.splitPath p).1 = h
    · simp [hph] at hl2
    · simpa [hph] using hl2

theorem lookup_drv_insertOutputs (hreg : StoreHash) :
    ∀ (outs : List DrvOutput) (c : StoreCache) {h : StoreHash} {d : Drv},
      StoreCache.lookup (insertOutputs hreg c outs) h = some (.drv d) →
      StoreCache.lookup c h = some (.drv d) := by
  intro outs
  induction outs with
  | nil => intro c h d hl; exact hl
  | cons o t ih =>
    intro c h d hl
    have hl2 := ih _ hl
    rw [lookup_insert] at hl2
    by_cases hph : (StoreHash.splitPath o.path).1 = h
    · simp [hph] at hl2
    · simpa [hph] using hl2

theorem mem_keys_insertSources_self :
    ∀ (srcs : List String) (c : StoreCache) {p : String}, p ∈ srcs →
      (StoreHash.splitPath p).1 ∈ (insertSources c srcs).keys := by
  intro srcs
  induction srcs with
  | nil => intro c p hp; cases hp
  | cons q t ih =>
    intro c p hp
    rcases List.mem_cons.mp hp with rfl | hp2
    · exact mem_keys_insertSources t _ (mem_keys_insert_self _ _ _)
    · exact ih _ hp2

theorem mem_keys_insertOutputs_self (hreg : StoreHash) :
    ∀ (outs : List DrvOutput) (c : StoreCache) {o : DrvOutput}, o ∈ outs →
      (StoreHash.splitPath o.path).1 ∈ (insertOutputs hreg c outs).keys := by
  intro outs
  induction outs with
  | nil => intro c o ho; cases ho
  | cons q t ih =>
    intro c o ho
    rcases List.mem_cons.mp ho with rfl | ho2
    · exact mem_keys_insertOutputs hreg t _ (mem_keys_insert_self _ _ _)
    · exact ih _ ho2

theorem discoverGo_closure_complete (fs : String → Option Drv) :
    ∀ (fuel : Nat) (tasks : List DiscoverTask) (c c' : StoreCache),
      discoverGo fs fuel tasks c = some c' → DiscoverInv c tasks → ClosureComplete c' := by
  intro fuel
  induction fuel with
  | zero =>
    intro tasks c c' hrun hinv
    cases tasks with
    | nil =>
      cases hrun
      intro h d hl
      rcases hinv h d hl with ⟨h1, h2, h3⟩
      refine ⟨h1, h2, fun i hi => ?_⟩
      rcases h3 i hi with hk | hpend
      · exact hk
      · rcases hpend with hmem | ⟨d2, hmem⟩ <;> cases hmem
    | cons t rest => simp [discoverGo] at hrun
  | succ fuel ih =>
    intro tasks c c' hrun hinv
    cases tasks with
    | nil =>
      cases hrun
      intro h d hl
      rcases hinv h d hl with ⟨h1, h2, h3⟩
      refine ⟨h1, h2, fun i hi => ?_⟩
      rcases h3 i hi with hk | hpend
      · exact hk
      · rcases hpend with hmem | ⟨d2, hmem⟩ <;> cases hmem
    | cons t rest =>
      cases t with
      | reg h drv =>
        by_cases hc : c.containsKey h
        · simp only [discoverGo, hc, if_true] at hrun
          refine ih rest c c' hrun ?_
          intro h2 d2 hl2
          rcases hinv h2 d2 hl2 with ⟨h1, h2o, h3⟩
          refine ⟨h1, h2o, fun i hi => ?_⟩
          rcases h3 i hi with hk | hpend
          · exact Or.inl hk
          · rcases hpend with hmem | ⟨d3, hmem⟩
            · rcases List.mem_cons.mp hmem with heq | hmem2
              · cases heq
              · exact Or.inr (Or.inl hmem2)
            · rcases List.mem_cons.mp hmem with heq | hmem2
              · have hhash : StoreHash.fromPath i.path = h := by
                  cases heq
                  rfl
                refine Or.inl ?_
                rw [hhash]
                rcases Option.isSome_iff_exists.mp
                  (by simpa [StoreCache.containsKey] using hc) with ⟨it, hit⟩
                exact lookup_some_mem_keys hit
              · exact Or.inr (Or.inr ⟨d3, hmem2⟩)
        · simp only [discoverGo, hc, Bool.false_eq_true, if_false] at hrun
          refine ih _ _ _ hrun ?_
          intro h2 d2 hl2
          have hl3 := lookup_drv_insertSources _ _
            (lookup_drv_insertOutputs h _ _ hl2)
          rw [lookup_insert] at hl3
          by_cases hh2 : h = h2
          · -- the newly registered recipe
            rw [if_pos hh2] at hl3
            have hd2 : drv = d2 := by
              simpa using hl3
            subst hd2
            subst hh2
            refine ⟨?_, ?_, ?_⟩
            · intro p hp
              exact mem_keys_insertOutputs h _ _ (mem_keys_insertSources_self _ _ hp)
            · intro o ho
              exact mem_keys_insertOutputs_self h _ _ ho
            · intro i hi
              exact Or.inr (Or.inl (List.mem_append_left _ (List.mem_map.mpr ⟨i, hi, rfl⟩)))
          · -- an entry that was already present
            rw [if_neg hh2] at hl3
            rcases hinv h2 d2 hl3 with ⟨h1, h2o, h3⟩
            have hmono : ∀ a : StoreHash, a ∈ c.keys →
                a ∈ (insertOutputs h (insertSources (c.insert h (.drv drv))
                  drv.inputSrcs) drv.outputs).keys := fun a ha =>
              mem_keys_insertOutputs h _ _ (mem_keys_insertSources _ _ (mem_keys_insert _ ha))
            refine ⟨fun p hp => hmono _ (h1 p hp), fun o ho => hmono _ (h2o o ho),
              fun i hi => ?_⟩
            rcases h3 i hi with hk | hpend
            · exact Or.inl (hmono _ hk)
            · rcases hpend with hmem | ⟨d3, hmem⟩
              · rcases List.mem_cons.mp hmem with heq | hmem2
                · cases heq
                · exact Or.inr (Or.inl (List.mem_append_right _ hmem2))
              · rcases List.mem_cons.mp hmem with heq | hmem2
                · have hhash : StoreHash.fromPath i.path = h := by
                    cases heq
                    rfl
                  refine Or.inl ?_
                  rw [hhash]
                  exact mem_keys_insertOutputs h _ _
                    (mem_keys_insertSources _ _ (mem_keys_insert_self _ _ _))
                · exact Or.inr (Or.inr ⟨d3, List.mem_append_right _ hmem2⟩)
      | inp i =>
        simp only [discoverGo] at hrun
        have hnext : ∀ dNew : Drv,
            discoverGo fs fuel (.reg (StoreHash.fromPath i.path) dNew :: rest) c = some c' →
            ClosureComplete c' := by
          intro dNew hrun2
          refine ih _ _ _ hrun2 ?_
          intro h2 d2 hl2
          rcases hinv h2 d2 hl2 with ⟨h1, h2o, h3⟩
          refine ⟨h1, h2o, fun j hj => ?_⟩
          rcases h3 j hj with hk | hpend
          · exact Or.inl hk
          · rcases hpend with hmem | ⟨d3, hmem⟩
            · rcases List.mem_cons.mp hmem with heq | hmem2
              · have hji : j = i := by
                  cases heq
                  rfl
                subst hji
                exact Or.inr (Or.inr ⟨dNew, by simp⟩)
              · exact Or.inr (Or.inl (List.mem_cons_of_mem _ hmem2))
            · rcases List.mem_cons.mp hmem with heq | hmem2
              · cases heq
              · exact Or.inr (Or.inr ⟨d3, List.mem_cons_of_mem _ hmem2⟩)
        rcases hcase : (StoreCache.lookup c (StoreHash.fromPath i.path)).bind StoreItem.asDrv with
          _ | dc
        · rw [hcase] at hrun
          rcases hfs : fs i.path with _ | dn
          · rw [hfs] at hrun
            cases hrun
          · rw [hfs] at hrun
            exact hnext dn hrun
        · rw [hcase] at hrun
          exact hnext dc hrun

theorem discover_closure_complete {fs : String → Option Drv} {fuel : Nat} {h : StoreHash}
    {drv : Drv} {c c' : StoreCache} (hcc : ClosureComplete c)
    (hrun : discover fs fuel h drv c = some c') : ClosureComplete c' := by
  refine discoverGo_closure_complete fs fuel _ c c' hrun ?_
  intro h2 d2 hl2
  rcases hcc h2 d2 hl2 with ⟨h1, h2o, h3⟩
  exact ⟨h1, h2o, fun i hi => Or.inl (h3 i hi)⟩

theorem discoverAll_closure_complete {fs : String → Option Drv} {fuel : Nat} :
    ∀ {calls : List (StoreHash × Drv)} {c c' : StoreCache}, ClosureComplete c →
      discoverAll fs fuel calls c = some c' → ClosureComplete c' := by
  intro calls
  induction calls with
  | nil =>
    intro c c' hcc hrun
    cases hrun
    exact hcc
  | cons hd rest ih =>
    intro c c' hcc hrun
    rcases hd with ⟨h, d⟩
    simp only [discoverAll] at hrun
    rcases hstep : discover fs fuel h d c with _ | c1
    · rw [hstep] at hrun
      cases hrun
    · rw [hstep] at hrun
      exact ih (discover_closure_complete hcc hstep) hrun

theorem buildStep_mem_keys {c : StoreCache} {a b : StoreHash}
    (hcc : ClosureComplete c) (hstep : BuildStep c a b) : b ∈ c.keys := by
  cases hstep with
  | src hl hp => exact (hcc _ _ hl).1 _ hp
  | out hl ho => exact (hcc _ _ hl).2.1 _ ho
  | inp hl hi => exact (hcc _ _ hl).2.2 _ hi

/-! ## Claim C4: build-time closure completeness -/

/-- Claim C4: after any sequence of completed `discover` calls starting
from the empty cache, for every recipe entry of the resulting cache,
every hash reachable from it along build-time closure edges — its input
sources, its declared outputs, and transitively everything reachable
through its input recipes — is a key of the cache. -/
theorem c4_closure_completeness (fs : String → Option Drv) (fuel : Nat)
    (calls : List (StoreHash × Drv)) (c' : StoreCache)
    (hrun : discoverAll fs fuel calls [] = some c') :
    ∀ (h h2 : StoreHash) (d : Drv), StoreCache.lookup c' h = some (.drv d) →
      Relation.ReflTransGen (BuildStep c') h h2 → h2 ∈ c'.keys := by
  have hcc : ClosureComplete c' :=
    discoverAll_closure_complete (fun h d hl => by cases hl) hrun
  intro h h2 d hl hreach
  induction hreach with
  | refl => exact lookup_some_mem_keys hl
  | tail hab hbc ih2 => exact buildStep_mem_keys hcc hbc

/-- Claim C4, witness: discovering the one-source one-output recipe
`drvW` from the empty cache; its source hash is reachable in one build
step and is a key of the resulting cache. -/
theorem c4_closure_completeness_witness :
    (StoreHash.splitPath srcPathW).1 ∈ StoreCache.keys discoveredW :=
  c4_closure_completeness (fun _ => none) 2 [(hashW, drvW)] discoveredW (by decide)
    hashW (StoreHash.splitPath srcPathW).1 drvW (by decide)
    (Relation.ReflTransGen.single
      (BuildStep.src (h := hashW) (d := drvW) (p := srcPathW) (by decide) (by decide)))

/-! ## Kind-monotonicity lemmas (claim C3) -/

theorem kindsPreserved_refl (c : StoreCache) : KindsPreserved c c :=
  fun _ it hl => ⟨it, hl, rfl⟩

theorem kindsPreserved_trans {c1 c2 c3 : StoreCache}
    (h12 : KindsPreserved c1 c2) (h23 : KindsPreserved c2 c3) : KindsPreserved c1 c3 := by
  intro h it hl
  rcases h12 h it hl with ⟨it2, hl2, hk2⟩
  rcases h23 h it2 hl2 with ⟨it3, hl3, hk3⟩
  exact ⟨it3, hl3, hk3.trans hk2⟩

theorem role_src_kind {it : StoreItem} (h : it.role = .src) : it.kind = .sourceK := by
  cases it <;> simp_all [StoreItem.role, StoreItem.kind]

theorem role_out_kind {it : StoreItem} (h : it.role = .out)
    (hnm : it.kind ≠ .metadataK) : it.kind = .outputK := by
  cases it <;> simp_all [StoreItem.role, StoreItem.kind]

theorem insert_nondrv_step (R : StoreHash → Role) (c : StoreCache) (h0 : StoreHash)
    (v : StoreItem) (hrole : v.role = R h0)
    (hvd : ∀ d : Drv, v ≠ .drv d) (hvm : v.kind ≠ .metadataK)
    (hmatch : ∀ it : StoreItem, it.role = v.role → it.kind ≠ .metadataK → it.kind = v.kind)
    (hA : Agrees R c) (hD : DrvsConsistent R c) (hN : NoMetadata c) :
    Agrees R (c.insert h0 v) ∧ DrvsConsistent R (c.insert h0 v) ∧
    NoMetadata (c.insert h0 v) ∧ KindsPreserved c (c.insert h0 v) := by
  refine ⟨?_, ?_, ?_, ?_⟩
  · intro h it hl
    rw [lookup_insert] at hl
    by_cases hh : h0 = h
    · rw [if_pos hh] at hl
      cases hl
      rw [← hh]
      exact hrole
    · rw [if_neg hh] at hl
      exact hA h it hl
  · intro h d hl
    rw [lookup_insert] at hl
    by_cases hh : h0 = h
    · rw [if_pos hh] at hl
      cases hl
      exact absurd rfl (hvd d)
    · rw [if_neg hh] at hl
      exact hD h d hl
  · intro h it hl
    rw [lookup_insert] at hl
    by_cases hh : h0 = h
    · rw [if_pos hh] at hl
      cases hl
      exact hvm
    · rw [if_neg hh] at hl
      exact hN h it hl
  · intro h it hl
    by_cases hh : h0 = h
    · subst hh
      refine ⟨v, lookup_insert_self c h0 v, ?_⟩
      have hr : it.role = R h0 := hA h0 it hl
      exact (hmatch it (by rw [hr, ← hrole]) (hN h0 it hl)).symm
    · exact ⟨it, by
        rw [lookup_insert_ne c v (fun hhh => hh hhh.symm)]
        exact hl, rfl⟩

theorem insertSources_step (R : StoreHash → Role) :
    ∀ (srcs : List String) (c : StoreCache),
      (∀ p ∈ srcs, R (StoreHash.splitPath p).1 = .src) →
      Agrees R c → DrvsConsistent R c → NoMetadata c →
      Agrees R (insertSources c srcs) ∧ DrvsConsistent R (insertSources c srcs) ∧
        NoMetadata (insertSources c srcs) ∧ KindsPreserved c (insertSources c srcs) := by
  intro srcs
  induction srcs with
  | nil =>
    intro c _ hA hD hN
    exact ⟨hA, hD, hN, kindsPreserved_refl c⟩
  | cons p t ih =>
    intro c hall hA hD hN
    have hstep := insert_nondrv_step R c (StoreHash.splitPath p).1
      (.source (StoreHash.splitPath p).2)
      (by
        have := hall p (by simp)
        simpa [StoreItem.role] using this.symm)
      (fun d hcon => StoreItem.noConfusion hcon)
      (by simp [StoreItem.kind])
      (fun it hr _ => role_src_kind hr)
      hA hD hN
    rcases hstep with ⟨hA1, hD1, hN1, hK1⟩
    rcases ih _ (fun q hq => hall q (List.mem_cons_of_mem _ hq)) hA1 hD1 hN1 with
      ⟨hA2, hD2, hN2, hK2⟩
    exact ⟨hA2, hD2, hN2, kindsPreserved_trans hK1 hK2⟩

theorem insertOutputs_step (R : StoreHash → Role) (hreg : StoreHash) :
    ∀ (outs : List DrvOutput) (c : StoreCache),
      (∀ o ∈ outs, R (StoreHash.splitPath o.path).1 = .out) →
      Agrees R c → DrvsConsistent R c → NoMetadata c →
      Agrees R (insertOutputs hreg c outs) ∧ DrvsConsistent R (insertOutputs hreg c outs) ∧
        NoMetadata (insertOutputs hreg c outs) ∧ KindsPreserved c (insertOutputs hreg c outs) := by
  intro outs
  induction outs with
  | nil =>
    intro c _ hA hD hN
    exact ⟨hA, hD, hN, kindsPreserved_refl c⟩
  | cons o t ih =>
    intro c hall hA hD hN
    have hstep := insert_nondrv_step R c (StoreHash.splitPath o.path).1
      (.output (StoreHash.splitPath o.path).2 hreg)
      (by
        have := hall o (by simp)
        simpa [StoreItem.role] using this.symm)
      (fun d hcon => StoreItem.noConfusion hcon)
      (by simp [StoreItem.kind])
      (fun it hr hnm => role_out_kind hr hnm)
      hA hD hN
    rcases hstep with ⟨hA1, hD1, hN1, hK1⟩
    rcases ih _ (fun q hq => hall q (List.mem_cons_of_mem _ hq)) hA1 hD1 hN1 with
      ⟨hA2, hD2, hN2, hK2⟩
    exact ⟨hA2, hD2, hN2, kindsPreserved_trans hK1 hK2⟩

theorem insert_drv_fresh_step (R : StoreHash → Role) (c : StoreCache) (h0 : StoreHash)
    (drv : Drv) (hfresh : StoreCache.lookup c h0 = none)
    (hrole : R h0 = .recipe) (hdr : DrvRoles R drv)
    (hA : Agrees R c) (hD : DrvsConsistent R c) (hN : NoMetadata c) :
    Agrees R (c.insert h0 (.drv drv)) ∧ DrvsConsistent R (c.insert h0 (.drv drv)) ∧
    NoMetadata (c.insert h0 (.drv drv)) ∧ KindsPreserved c (c.insert h0 (.drv drv)) := by
  refine ⟨?_, ?_, ?_, ?_⟩
  · intro h it hl
    rw [lookup_insert] at hl
    by_cases hh : h0 = h
    · rw [if_pos hh] at hl
      cases hl
      rw [← hh, hrole]
      rfl
    · rw [if_neg hh] at hl
      exact hA h it hl
  · intro h d hl
    rw [lookup_insert] at hl
    by_cases hh : h0 = h
    · rw [if_pos hh] at hl
      have : drv = d := by simpa using hl
      subst this
      exact hdr
    · rw [if_neg hh] at hl
      exact hD h d hl
  · intro h it hl
    rw [lookup_insert] at hl
    by_cases hh : h0 = h
    · rw [if_pos hh] at hl
      cases hl
      simp [StoreItem.kind]
    · rw [if_neg hh] at hl
      exact hN h it hl
  · intro h it hl
    by_cases hh : h0 = h
    · rw [← hh, hfresh] at hl
      cases hl
    · exact ⟨it, by
        rw [lookup_insert_ne c _ (fun hhh => hh hhh.symm)]
        exact hl, rfl⟩

theorem discoverGo_kind_preserve (R : StoreHash → Role) (fs : String → Option Drv)
    (hfs : FsCoherent R fs) :
    ∀ (fuel : Nat) (tasks : List DiscoverTask) (c c' : StoreCache),
      discoverGo fs fuel tasks c = some c' →
      Agrees R c → DrvsConsistent R c → NoMetadata c →
      (∀ t ∈ tasks, TaskRole R t) →
      Agrees R c' ∧ DrvsConsistent R c' ∧ NoMetadata c' ∧ KindsPreserved c c' := by
  intro fuel
  induction fuel with
  | zero =>
    intro tasks c c' hrun hA hD hN _
    cases tasks with
    | nil => cases hrun; exact ⟨hA, hD, hN, kindsPreserved_refl c⟩
    | cons t rest => simp [discoverGo] at hrun
  | succ fuel ih =>
    intro tasks c c' hrun hA hD hN htasks
    cases tasks with
    | nil => cases hrun; exact ⟨hA, hD, hN, kindsPreserved_refl c⟩
    | cons t rest =>
      cases t with
      | reg h drv =>
        have htr : TaskRole R (.reg h drv) := htasks _ (by simp)
        rcases htr with ⟨hrr, hdr⟩
        by_cases hc : c.containsKey h
        · simp only [discoverGo, hc, if_true] at hrun
          exact ih rest c c' hrun hA hD hN
            (fun t2 ht2 => htasks t2 (List.mem_cons_of_mem _ ht2))
        · simp only [discoverGo, hc, Bool.false_eq_true, if_false] at hrun
          have hfresh : StoreCache.lookup c h = none := by
            rcases hl : StoreCache.lookup c h with _ | it
            · rfl
            · exact absurd (by simp [StoreCache.containsKey, hl]) hc
          rcases insert_drv_fresh_step R c h drv hfresh hrr hdr hA hD hN with
            ⟨hA1, hD1, hN1, hK1⟩
          rcases insertSources_step R drv.inputSrcs _ (fun p hp => hdr.1 p hp) hA1 hD1 hN1 with
            ⟨hA2, hD2, hN2, hK2⟩
          rcases insertOutputs_step R h drv.outputs _ (fun o ho => hdr.2.1 o ho) hA2 hD2 hN2 with
            ⟨hA3, hD3, hN3, hK3⟩
          have htasks2 : ∀ t2 ∈ (drv.inputDrvs.map .inp ++ rest), TaskRole R t2 := by
            intro t2 ht2
            rcases List.mem_append.mp ht2 with hm | hm
            · rcases List.mem_map.mp hm with ⟨i, hi, rfl⟩
              exact hdr.2.2 i hi
            · exact htasks t2 (List.mem_cons_of_mem _ hm)
          rcases ih _ _ _ hrun hA3 hD3 hN3 htasks2 with ⟨hA4, hD4, hN4, hK4⟩
          exact ⟨hA4, hD4, hN4,
            kindsPreserved_trans (kindsPreserved_trans (kindsPreserved_trans hK1 hK2) hK3) hK4⟩
      | inp i =>
        have hri : TaskRole R (.inp i) := htasks _ (by simp)
        simp only [discoverGo] at hrun
        have hgen : ∀ dN : Drv, DrvRoles R dN →
            discoverGo fs fuel (.reg (StoreHash.fromPath i.path) dN :: rest) c = some c' →
            Agrees R c' ∧ DrvsConsistent R c' ∧ NoMetadata c' ∧ KindsPreserved c c' := by
          intro dN hdN hrun2
          refine ih _ _ _ hrun2 hA hD hN ?_
          intro t2 ht2
          rcases List.mem_cons.mp ht2 with rfl | hm
          · exact ⟨hri, hdN⟩
          · exact htasks t2 (List.mem_cons_of_mem _ hm)
        rcases hcase : (StoreCache.lookup c (StoreHash.fromPath i.path)).bind StoreItem.asDrv with
          _ | dc
        · rw [hcase] at hrun
          rcases hfsc : fs i.path with _ | dn
          · rw [hfsc] at hrun
            cases hrun
          · rw [hfsc] at hrun
            exact hgen dn (hfs _ _ hfsc) hrun
        · rw [hcase] at hrun
          have hdc : StoreCache.lookup c (StoreHash.fromPath i.path) = some (.drv dc) := by
            rcases hl : StoreCache.lookup c (StoreHash.fromPath i.path) with _ | it
            · rw [hl] at hcase
              cases hcase
            · rw [hl] at hcase
              cases it with
              | drv d2 =>
                have : d2 = dc := by simpa [StoreItem.asDrv] using hcase
                rw [this]
              | narInfo n => simp [StoreItem.asDrv] at hcase
              | source s => simp [StoreItem.asDrv] at hcase
              | output nm dh => simp [StoreItem.asDrv] at hcase
          exact hgen dc (hD _ _ hdc) hrun

/-- Claim C3, amended: provided every hash plays one fixed role across
the run (recipe, source, or output — as real store paths do), that the
recipes discovered and all recipes readable from the filesystem respect
those roles, and that no metadata entry exists yet at discovery time
(discovery precedes fetching in the pipeline), then: (i) a completed
`discover` call never changes the kind of any existing entry — in
particular it never overwrites a `Drv`, `NarInfo`, or `Source` entry
with a different kind; (ii) one merge step of the fetch phase changes
an existing entry only by upgrading an `Output` to metadata, never
removing or downgrading it; (iii) a metadata entry stays metadata
through any further merge step, so the upgrade happens at most once per
hash. -/
theorem c3_kind_monotone :
    (∀ (R : StoreHash → Role) (fs : String → Option Drv) (fuel : Nat) (h : StoreHash)
        (drv : Drv) (c c' : StoreCache),
      FsCoherent R fs → Agrees R c → DrvsConsistent R c → NoMetadata c →
      R h = .recipe → DrvRoles R drv →
      discover fs fuel h drv c = some c' → KindsPreserved c c') ∧
    (∀ (c : StoreCache) (k : Nat) (r : StoreHash × NarInfo) (h : StoreHash) (it : StoreItem),
      StoreCache.lookup c h = some it →
      ∃ it2, StoreCache.lookup (mergeOne (c, k) r).1 h = some it2 ∧
        (it2 = it ∨ (it.kind = .outputK ∧ it2.kind = .metadataK))) ∧
    (∀ (c : StoreCache) (k : Nat) (r : StoreHash × NarInfo) (h : StoreHash) (it : StoreItem),
      StoreCache.lookup c h = some it → it.kind = .metadataK →
      ∃ it2, StoreCache.lookup (mergeOne (c, k) r).1 h = some it2 ∧
        it2.kind = .metadataK) := by
  have hmerge : ∀ (c : StoreCache) (k : Nat) (r : StoreHash × NarInfo) (h : StoreHash)
      (it : StoreItem), StoreCache.lookup c h = some it →
      ∃ it2, StoreCache.lookup (mergeOne (c, k) r).1 h = some it2 ∧
        (it2 = it ∨ (it.kind = .outputK ∧ it2.kind = .metadataK)) := by
    intro c k r h it hl
    rcases hc : StoreCache.lookup c r.1 with _ | it0
    · -- vacant: fresh insert elsewhere
      have hne : h ≠ r.1 := by
        intro hh
        rw [hh, hc] at hl
        cases hl
      refine ⟨it, ?_, Or.inl rfl⟩
      simp only [mergeOne, hc]
      rw [lookup_insert_ne c _ hne]
      exact hl
    · cases it0 with
      | output nm dh =>
        by_cases hh : h = r.1
        · subst hh
          have : it = .output nm dh := by
            rw [hl] at hc
            simpa using hc
          subst this
          refine ⟨.narInfo r.2, ?_, Or.inr ⟨rfl, rfl⟩⟩
          simp only [mergeOne, hc]
          exact lookup_insert_self c r.1 _
        · refine ⟨it, ?_, Or.inl rfl⟩
          simp only [mergeOne, hc]
          rw [lookup_insert_ne c _ hh]
          exact hl
      | drv d => exact ⟨it, by simp only [mergeOne, hc]; exact hl, Or.inl rfl⟩
      | narInfo n => exact ⟨it, by simp only [mergeOne, hc]; exact hl, Or.inl rfl⟩
      | source s => exact ⟨it, by simp only [mergeOne, hc]; exact hl, Or.inl rfl⟩
  refine ⟨?_, hmerge, ?_⟩
  · intro R fs fuel h drv c c' hfs hA hD hN hrr hdr hrun
    exact (discoverGo_kind_preserve R fs hfs fuel _ c c' hrun hA hD hN
      (fun t ht => by
        rcases List.mem_singleton.mp ht with rfl
        exact ⟨hrr, hdr⟩)).2.2.2
  · intro c k r h it hl hm
    rcases hmerge c k r h it hl with ⟨it2, hl2, hcase⟩
    rcases hcase with rfl | ⟨hout, _⟩
    · exact ⟨it2, hl2, hm⟩
    · rw [hm] at hout
      cases hout

/-- Claim C3 (amended), witness: discovering `drvW` over a cache that
already holds a `Source` entry at the hash of `drvW`'s input source,
with the concrete role assignment `rolesW`: the entry survives with its
kind unchanged. -/
theorem c3_kind_monotone_witness :
    ∃ it2, StoreCache.lookup discoveredW hashSW = some it2 ∧
      it2.kind = (StoreItem.source ("s0")).kind := by
  refine (c3_kind_monotone.1 rolesW (fun _ => none) 2 hashW drvW
    [(hashSW, .source ("s0"))] discoveredW ?_ ?_ ?_ ?_ (by decide)
    (by exact ⟨by decide, by decide, by decide⟩) (by decide))
    hashSW (.source ("s0")) (by decide)
  · intro p d hpd
    cases hpd
  · intro h it hl
    simp only [StoreCache.lookup] at hl
    by_cases hh : hashSW = h
    · rw [if_pos hh] at hl
      cases hl
      rw [← hh]
      decide
    · rw [if_neg hh] at hl
      cases hl
  · intro h d hl
    simp only [StoreCache.lookup] at hl
    by_cases hh : hashSW = h
    · rw [if_pos hh] at hl
      cases hl
    · rw [if_neg hh] at hl
      cases hl
  · intro h it hl
    simp only [StoreCache.lookup] at hl
    by_cases hh : hashSW = h
    · rw [if_pos hh] at hl
      cases hl
      decide
    · rw [if_neg hh] at hl
      cases hl

/-! ## Derivation-grammar roundtrip lemmas (claim C7) -/

theorem append_cons_ne_nil (xs : List Char) (y : Char) (ys : List Char) :
    xs ++ y :: ys ≠ [] := by
  cases xs <;> simp

theorem charP_self (c : Char) (r : List Char) : charP c (c :: r) = .ok r c := by
  simp [charP]

theorem tagP_exact (s rest : List Char) : tagP s (s ++ rest) = .ok rest s := by
  have hpre : s.isPrefixOf (s ++ rest) = true := by
    rw [List.isPrefixOf_iff_prefix]
    exact List.prefix_append s rest
  simp [tagP, hpre]

theorem escTransGo_roundtrip :
    ∀ (s : List Char) (rest : List Char),
      escTransGo ((s.map escChar).flatten ++ '"' :: rest) = .ok ('"' :: rest) s := by
  intro s
  induction s with
  | nil =>
    intro rest
    simp only [List.map_nil, List.flatten_nil, List.nil_append]
    rw [escTransGo.eq_def]
    simp
  | cons c t ih =>
    intro rest
    by_cases h1 : c = '\\'
    · subst h1
      have he : escChar ('\\') = ['\\', '\\'] := by simp [escChar]
      simp only [List.map_cons, List.flatten_cons, he, List.cons_append, List.append_assoc]
      rw [escTransGo.eq_def]
      simp [escMap, ih rest]
    · by_cases h2 : c = '"'
      · subst h2
        have he : escChar ('"') = ['\\', '"'] := by simp [escChar]
        simp only [List.map_cons, List.flatten_cons, he, List.cons_append, List.append_assoc]
        rw [escTransGo.eq_def]
        simp [escMap, ih rest]
      · by_cases h3 : c = '\n'
        · subst h3
          have he : escChar ('\n') = ['\\', 'n'] := by simp [escChar]
          simp only [List.map_cons, List.flatten_cons, he, List.cons_append, List.append_assoc]
          rw [escTransGo.eq_def]
          simp [escMap, ih rest]
        · by_cases h4 : c = '\t'
          · subst h4
            have he : escChar ('\t') = ['\\', 't'] := by simp [escChar]
            simp only [List.map_cons, List.flatten_cons, he, List.cons_append,
              List.append_assoc]
            rw [escTransGo.eq_def]
            simp [escMap, ih rest]
          · have he : escChar c = [c] := by simp [escChar, h1, h2, h3, h4]
            simp only [List.map_cons, List.flatten_cons, he, List.cons_append,
              List.append_assoc, List.singleton_append]
            rw [escTransGo.eq_def]
            simp only []
            rw [if_neg h1, if_neg h2]
            simp only [List.nil_append]
            rw [ih rest]

theorem escTrans_roundtrip (s rest : List Char) :
    escTrans ((s.map escChar).flatten ++ '"' :: rest) = .ok ('"' :: rest) s := by
  rw [escTrans, if_neg (append_cons_ne_nil _ _ _)]
  exact escTransGo_roundtrip s rest

theorem dstringP_roundtrip (s : String) (rest : List Char) :
    dstringP (encodeString s ++ rest) = .ok rest s := by
  obtain ⟨data⟩ := s
  have hsplit : encodeString ⟨data⟩ ++ rest =
      '"' :: ((data.map escChar).flatten ++ '"' :: rest) := by
    simp [encodeString]
  rw [hsplit]
  simp [dstringP, NP.bind, NP.map, charP_self, escTrans_roundtrip data rest]

theorem dstringP_ne_nil (s : String) : encodeString s ≠ [] := by
  simp [encodeString]

theorem dstringP_bracket (t : List Char) : dstringP (']' :: t) = .err := by
  simp [dstringP, NP.bind, charP]

theorem dstringP_first_quote (i : List Char) (hq : ∀ x ∈ i.head?, x ≠ '"') :
    dstringP i = .err := by
  cases i with
  | nil => simp [dstringP, NP.bind, charP]
  | cons x r =>
    have hx : x ≠ '"' := hq x (by simp)
    simp [dstringP, NP.bind, charP, hx]

theorem ne_of_length_lt {α : Type} {xs ys : List α} (h : xs.length < ys.length) :
    xs ≠ ys := by
  intro he
  rw [he] at h
  omega

theorem sepByComma_cons (enc : α → List Char) (x : α) :
    ∀ t : List α, sepByComma ((x :: t).map enc) = enc x ++ sepTail enc t := by
  intro t
  induction t generalizing x with
  | nil => simp [sepByComma, sepTail]
  | cons y t2 ih =>
    show sepByComma (enc x :: enc y :: (t2.map enc)) = _
    rw [sepByComma]
    rw [show (enc y :: t2.map enc) = (y :: t2).map enc from rfl, ih y]
    simp [sepTail]

theorem sepListLoop_roundtrip (p : NP α) (enc : α → List Char) :
    ∀ (t : List α) (acc : List α) (F : Nat) (rest : List Char),
      (∀ x ∈ t, ∀ r : List Char, p (enc x ++ r) = .ok r x) →
      (∀ x ∈ t, enc x ≠ []) → t.length < F →
      sepListLoop p F (sepTail enc t ++ ']' :: rest) acc =
        .ok (']' :: rest) (acc.reverse ++ t) := by
  intro t
  induction t with
  | nil =>
    intro acc F rest _ _ hF
    rcases F with _ | F2
    · omega
    · show sepListLoop p (F2 + 1) (']' :: rest) acc = _
      simp [sepListLoop, commaP, charP]
  | cons x t2 ih =>
    intro acc F rest hp hne hF
    rcases F with _ | F2
    · omega
    · have hin : sepTail enc (x :: t2) ++ ']' :: rest =
          ',' :: (enc x ++ (sepTail enc t2 ++ ']' :: rest)) := by
        simp [sepTail]
      rw [hin]
      have hlen1 : (enc x ++ (sepTail enc t2 ++ ']' :: rest)).length <
          (',' :: (enc x ++ (sepTail enc t2 ++ ']' :: rest))).length := by
        simp
      have hlenx : 1 ≤ (enc x).length := by
        rcases hx : enc x with _ | ⟨a, b⟩
        · exact absurd hx (hne x (by simp))
        · simp
      have hlen2 : (sepTail enc t2 ++ ']' :: rest).length <
          (',' :: (enc x ++ (sepTail enc t2 ++ ']' :: rest))).length := by
        simp
        omega
      simp only [sepListLoop, commaP, charP_self]
      rw [if_neg (ne_of_length_lt hlen1)]
      rw [hp x (by simp) (sepTail enc t2 ++ ']' :: rest)]
      have hne2 : sepTail enc t2 ++ ']' :: rest ≠
          ',' :: (enc x ++ (sepTail enc t2 ++ ']' :: rest)) := ne_of_length_lt hlen2
      simp only [hne2, if_false]
      rw [ih (x :: acc) F2 rest (fun y hy => hp y (List.mem_cons_of_mem _ hy))
        (fun y hy => hne y (List.mem_cons_of_mem _ hy))
        (by simpa using Nat.lt_of_succ_lt_succ hF)]
      simp

theorem sepListP_roundtrip (p : NP α) (enc : α → List Char)
    (hterm : ∀ r : List Char, p (']' :: r) = .err) :
    ∀ (l : List α) (F : Nat) (rest : List Char),
      (∀ x ∈ l, ∀ r : List Char, p (enc x ++ r) = .ok r x) →
      (∀ x ∈ l, enc x ≠ []) → l.length ≤ F →
      sepListP p F (sepByComma (l.map enc) ++ ']' :: rest) = .ok (']' :: rest) l := by
  intro l F rest hp hne hF
  cases l with
  | nil =>
    show sepListP p F (']' :: rest) = _
    simp [sepListP, hterm rest]
  | cons x t =>
    rw [sepByComma_cons enc x t, List.append_assoc]
    have hlen2 : (sepTail enc t ++ ']' :: rest).length <
        (enc x ++ (sepTail enc t ++ ']' :: rest)).length := by
      have hlenx : 1 ≤ (enc x).length := by
        rcases hx : enc x with _ | ⟨a, b⟩
        · exact absurd hx (hne x (by simp))
        · simp
      simp
      omega
    simp only [sepListP]
    rw [hp x (by simp) (sepTail enc t ++ ']' :: rest)]
    have hne2 : sepTail enc t ++ ']' :: rest ≠
        enc x ++ (sepTail enc t ++ ']' :: rest) := ne_of_length_lt hlen2
    simp only [hne2, if_false]
    rw [sepListLoop_roundtrip p enc t [x] F rest
      (fun y hy => hp y (List.mem_cons_of_mem _ hy))
      (fun y hy => hne y (List.mem_cons_of_mem _ hy)) (by simpa using hF)]
    simp

theorem listOf_roundtrip (p : NP α) (enc : α → List Char)
    (hterm : ∀ r : List Char, p (']' :: r) = .err)
    (l : List α) (F : Nat) (rest : List Char)
    (hp : ∀ x ∈ l, ∀ r : List Char, p (enc x ++ r) = .ok r x)
    (hne : ∀ x ∈ l, enc x ≠ []) (hF : l.length ≤ F) :
    listOf p F (encodeListOf enc l ++ rest) = .ok rest l := by
  have hin : encodeListOf enc l ++ rest =
      '[' :: (sepByComma (l.map enc) ++ ']' :: rest) := by
    simp [encodeListOf]
  rw [hin]
  simp only [listOf, NP.bind, NP.map, charP_self]
  rw [sepListP_roundtrip p enc hterm l F rest hp hne hF]
  simp [charP_self]

theorem encodeOutput_ne_nil (o : DrvOutput) : encodeOutput o ≠ [] := by
  simp [encodeOutput]

theorem encodeInputDrv_ne_nil (i : InputDrv) : encodeInputDrv i ≠ [] := by
  simp [encodeInputDrv]

theorem encodePairSS_ne_nil (kv : String × String) : encodePairSS kv ≠ [] := by
  simp [encodePairSS]

theorem drvOutputP_bracket (t : List Char) : drvOutputP (']' :: t) = .err := by
  simp [drvOutputP, inParens, NP.bind, charP]

theorem inputDrvP_bracket (F : Nat) (t : List Char) : inputDrvP F (']' :: t) = .err := by
  simp [inputDrvP, inParens, NP.bind, charP]

theorem pairSS_bracket (t : List Char) : pairP dstringP dstringP (']' :: t) = .err := by
  simp [pairP, inParens, NP.bind, charP]

theorem drvOutputP_roundtrip (o : DrvOutput) (rest : List Char) :
    drvOutputP (encodeOutput o ++ rest) = .ok rest o := by
  simp only [encodeOutput, List.cons_append, List.append_assoc]
  simp [drvOutputP, inParens, NP.bind, NP.map, commaP, charP_self, dstringP_roundtrip]

theorem inputDrvP_roundtrip (F : Nat) (i : InputDrv) (rest : List Char)
    (hF : i.outputs.length ≤ F) :
    inputDrvP F (encodeInputDrv i ++ rest) = .ok rest i := by
  have hl : ∀ r : List Char, listOf dstringP F (encodeListOf encodeString i.outputs ++ r) =
      .ok r i.outputs :=
    fun r => listOf_roundtrip dstringP encodeString dstringP_bracket i.outputs F r
      (fun x _ r2 => dstringP_roundtrip x r2) (fun x _ => dstringP_ne_nil x) hF
  simp only [encodeInputDrv, List.cons_append, List.append_assoc]
  simp [inputDrvP, inParens, NP.bind, NP.map, commaP, charP_self, dstringP_roundtrip, hl]

theorem pairSS_roundtrip (kv : String × String) (rest : List Char) :
    pairP dstringP dstringP (encodePairSS kv ++ rest) = .ok rest kv := by
  simp only [encodePairSS, List.cons_append, List.append_assoc]
  simp [pairP, inParens, NP.bind, NP.map, commaP, charP_self, dstringP_roundtrip]

theorem sepTail_length (enc : α → List Char) :
    ∀ t : List α, t.length ≤ (sepTail enc t).length := by
  intro t
  induction t with
  | nil => simp [sepTail]
  | cons x t2 ih =>
    simp [sepTail]
    omega

theorem length_le_encodeListOf (enc : α → List Char) (l : List α)
    (hne : ∀ x ∈ l, enc x ≠ []) : l.length ≤ (encodeListOf enc l).length := by
  cases l with
  | nil => simp [encodeListOf]
  | cons x t =>
    have h1 : 1 ≤ (enc x).length := by
      rcases hx : enc x with _ | _
      · exact absurd hx (hne x (by simp))
      · simp
    have h2 := sepTail_length enc t
    rw [encodeListOf, sepByComma_cons enc x t]
    simp
    omega

theorem mem_sepTail_length (enc : α → List Char) :
    ∀ (t : List α), ∀ x ∈ t, (enc x).length ≤ (sepTail enc t).length := by
  intro t
  induction t with
  | nil =>
    intro x hx
    simp at hx
  | cons y t2 ih =>
    intro x hx
    rcases List.mem_cons.mp hx with h | h
    · subst h
      simp [sepTail]
      omega
    · have h3 := ih x h
      simp [sepTail]
      omega

theorem mem_length_le_encodeListOf (enc : α → List Char) (l : List α) (x : α)
    (hx : x ∈ l) : (enc x).length ≤ (encodeListOf enc l).length := by
  cases l with
  | nil => simp at hx
  | cons y t =>
    rw [encodeListOf, sepByComma_cons enc y t]
    rcases List.mem_cons.mp hx with h | h
    · subst h
      simp
      omega
    · have h3 := mem_sepTail_length enc t x h
      simp
      omega

theorem encodeDrv_component_lengths (d : Drv) :
    (encodeListOf encodeOutput d.outputs).length ≤ (encodeDrv d).length ∧
    (encodeListOf encodeInputDrv d.inputDrvs).length ≤ (encodeDrv d).length ∧
    (encodeListOf encodeString d.inputSrcs).length ≤ (encodeDrv d).length ∧
    (encodeListOf encodeString d.builderArgs).length ≤ (encodeDrv d).length ∧
    (encodeListOf encodePairSS d.env).length ≤ (encodeDrv d).length := by
  simp [encodeDrv]
  omega

theorem tagP_derive (X : List Char) :
    tagP ['D', 'e', 'r', 'i', 'v', 'e'] ('D' :: 'e' :: 'r' :: 'i' :: 'v' :: 'e' :: X) =
      .ok X ['D', 'e', 'r', 'i', 'v', 'e'] :=
  tagP_exact ['D', 'e', 'r', 'i', 'v', 'e'] X

theorem drvBodyP_roundtrip (d : Drv) (F : Nat) (rest : List Char)
    (h1 : d.outputs.length ≤ F) (h2 : d.inputDrvs.length ≤ F)
    (h3 : ∀ i ∈ d.inputDrvs, i.outputs.length ≤ F)
    (h4 : d.inputSrcs.length ≤ F) (h5 : d.builderArgs.length ≤ F)
    (h6 : d.env.length ≤ F) :
    drvBodyP F (encodeDrv d ++ rest) = .ok rest d := by
  have hL1 : ∀ r : List Char,
      listOf drvOutputP F (encodeListOf encodeOutput d.outputs ++ r) = .ok r d.outputs :=
    fun r => listOf_roundtrip drvOutputP encodeOutput drvOutputP_bracket d.outputs F r
      (fun x _ r2 => drvOutputP_roundtrip x r2) (fun x _ => encodeOutput_ne_nil x) h1
  have hL2 : ∀ r : List Char,
      listOf (inputDrvP F) F (encodeListOf encodeInputDrv d.inputDrvs ++ r) =
        .ok r d.inputDrvs :=
    fun r => listOf_roundtrip (inputDrvP F) encodeInputDrv (inputDrvP_bracket F)
      d.inputDrvs F r (fun x hx r2 => inputDrvP_roundtrip F x r2 (h3 x hx))
      (fun x _ => encodeInputDrv_ne_nil x) h2
  have hL3 : ∀ r : List Char,
      listOf dstringP F (encodeListOf encodeString d.inputSrcs ++ r) = .ok r d.inputSrcs :=
    fun r => listOf_roundtrip dstringP encodeString dstringP_bracket d.inputSrcs F r
      (fun x _ r2 => dstringP_roundtrip x r2) (fun x _ => dstringP_ne_nil x) h4
  have hL4 : ∀ r : List Char,
      listOf dstringP F (encodeListOf encodeString d.builderArgs ++ r) =
        .ok r d.builderArgs :=
    fun r => listOf_roundtrip dstringP encodeString dstringP_bracket d.builderArgs F r
      (fun x _ r2 => dstringP_roundtrip x r2) (fun x _ => dstringP_ne_nil x) h5
  have hL5 : ∀ r : List Char,
      listOf (pairP dstringP dstringP) F (encodeListOf encodePairSS d.env ++ r) =
        .ok r d.env :=
    fun r => listOf_roundtrip (pairP dstringP dstringP) encodePairSS pairSS_bracket
      d.env F r (fun x _ r2 => pairSS_roundtrip x r2) (fun x _ => encodePairSS_ne_nil x) h6
  have hsplit : (("Derive(")).toList = (("Derive")).toList ++ ['('] := by decide
  have hin : encodeDrv d ++ rest =
      (("Derive")).toList ++ ('(' ::
        (encodeListOf encodeOutput d.outputs ++ ',' ::
          (encodeListOf encodeInputDrv d.inputDrvs ++ ',' ::
            (encodeListOf encodeString d.inputSrcs ++ ',' ::
              (encodeString d.platform ++ ',' ::
                (encodeString d.builder ++ ',' ::
                  (encodeListOf encodeString d.builderArgs ++ ',' ::
                    (encodeListOf encodePairSS d.env ++ ')' :: rest)))))))) := by
    simp [encodeDrv, hsplit]
  rw [hin]
  simp [drvBodyP, precededP, inParens, NP.bind, NP.map, commaP, charP_self, tagP_exact,
    tagP_derive, dstringP_roundtrip, hL1, hL2, hL3, hL4, hL5]

theorem drvP_roundtrip (d : Drv) (s : List Char) :
    drvP (encodeDrv d ++ s) = .ok s d := by
  refine drvBodyP_roundtrip d ((encodeDrv d ++ s).length + 1) s ?_ ?_ ?_ ?_ ?_ ?_
  · have a := length_le_encodeListOf encodeOutput d.outputs
      (fun x _ => encodeOutput_ne_nil x)
    have b := (encodeDrv_component_lengths d).1
    simp only [List.length_append]
    omega
  · have a := length_le_encodeListOf encodeInputDrv d.inputDrvs
      (fun x _ => encodeInputDrv_ne_nil x)
    have b := (encodeDrv_component_lengths d).2.1
    simp only [List.length_append]
    omega
  · intro i hi
    have a := length_le_encodeListOf encodeString i.outputs (fun x _ => dstringP_ne_nil x)
    have b : (encodeListOf encodeString i.outputs).length ≤ (encodeInputDrv i).length := by
      simp [encodeInputDrv]
      omega
    have c := mem_length_le_encodeListOf encodeInputDrv d.inputDrvs i hi
    have e := (encodeDrv_component_lengths d).2.1
    simp only [List.length_append]
    omega
  · have a := length_le_encodeListOf encodeString d.inputSrcs
      (fun x _ => dstringP_ne_nil x)
    have b := (encodeDrv_component_lengths d).2.2.1
    simp only [List.length_append]
    omega
  · have a := length_le_encodeListOf encodeString d.builderArgs
      (fun x _ => dstringP_ne_nil x)
    have b := (encodeDrv_component_lengths d).2.2.2.1
    simp only [List.length_append]
    omega
  · have a := length_le_encodeListOf encodePairSS d.env (fun x _ => encodePairSS_ne_nil x)
    have b := (encodeDrv_component_lengths d).2.2.2.2
    simp only [List.length_append]
    omega

theorem readFromBytes_encode (d : Drv) : readFromBytes (encodeDrv d) = some d := by
  have h := drvP_roundtrip d []
  rw [List.append_nil] at h
  simp [readFromBytes, h]

theorem readFromBytes_trailing (d : Drv) (s : List Char) (hs : s ≠ []) :
    readFromBytes (encodeDrv d ++ s) = none := by
  have h := drvP_roundtrip d s
  rcases s with _ | ⟨a, t⟩
  · exact absurd rfl hs
  · simp [readFromBytes, h]

theorem escTransGo_bad_escape :
    ∀ (pre : List Char), (∀ a ∈ pre, a ≠ '\\' ∧ a ≠ '"') →
    ∀ (c : Char) (t : List Char), escMap c = none →
      escTransGo (pre ++ '\\' :: c :: t) = .err := by
  intro pre
  induction pre with
  | nil =>
    intro _ c t hc
    rw [List.nil_append, escTransGo.eq_def]
    simp [hc]
  | cons a p2 ih =>
    intro hpre c t hc
    have ha := hpre a (by simp)
    rw [List.cons_append, escTransGo.eq_def]
    simp only []
    rw [if_neg ha.1, if_neg ha.2]
    simp only [ih (fun y hy => hpre y (List.mem_cons_of_mem _ hy)) c t hc]

theorem dstringP_bad_escape (pre : List Char) (hpre : ∀ a ∈ pre, a ≠ '\\' ∧ a ≠ '"')
    (c : Char) (hc : escMap c = none) (t : List Char) :
    dstringP ('"' :: (pre ++ '\\' :: c :: t)) = .err := by
  have h := escTransGo_bad_escape pre hpre c t hc
  have hne : pre ++ '\\' :: c :: t ≠ [] := append_cons_ne_nil pre '\\' (c :: t)
  simp [dstringP, NP.bind, NP.map, charP_self, escTrans, hne, h]

theorem escTransGo_unterminated :
    ∀ (n : Nat) (t : List Char), t.length ≤ n → ('"') ∉ t →
      escTransGo t = .err ∨ escTransGo t = .incomplete := by
  intro n
  induction n with
  | zero =>
    intro t ht _
    have hnil : t = [] := List.eq_nil_of_length_eq_zero (Nat.le_zero.mp ht)
    subst hnil
    right
    rfl
  | succ m ih =>
    intro t ht hq
    rcases t with _ | ⟨c, rest⟩
    · right
      rfl
    · by_cases h1 : c = '\\'
      · subst h1
        rcases rest with _ | ⟨e, rest2⟩
        · right
          rw [escTransGo.eq_def]
          simp
        · rcases he : escMap e with _ | t2
          · left
            rw [escTransGo.eq_def]
            simp [he]
          · have hr2 : rest2.length ≤ m := by
              simp at ht
              omega
            have hq2 : ('"') ∉ rest2 := fun hmem => hq (by simp [hmem])
            rcases ih rest2 hr2 hq2 with h | h
            · left
              rw [escTransGo.eq_def]
              simp [he, h]
            · right
              rw [escTransGo.eq_def]
              simp [he, h]
      · have h2 : c ≠ ('"') := fun he2 => hq (by simp [he2])
        have hr : rest.length ≤ m := by
          simp at ht
          omega
        have hq2 : ('"') ∉ rest := fun hmem => hq (by simp [hmem])
        rcases ih rest hr hq2 with h | h
        · left
          rw [escTransGo.eq_def]
          simp [h1, h2, h]
        · right
          rw [escTransGo.eq_def]
          simp [h1, h2, h]

theorem dstringP_unterminated (t : List Char) (hq : ('"') ∉ t) :
    dstringP (('"') :: t) = .err ∨ dstringP (('"') :: t) = .incomplete := by
  rcases t with _ | ⟨c, rest⟩
  · left
    simp [dstringP, NP.bind, NP.map, charP_self, escTrans, charP]
  · have hne : c :: rest ≠ [] := by simp
    rcases escTransGo_unterminated (c :: rest).length (c :: rest) le_rfl hq with h | h
    · left
      simp [dstringP, NP.bind, NP.map, charP_self, escTrans, hne, h]
    · right
      simp [dstringP, NP.bind, NP.map, charP_self, escTrans, hne, h]

/-- C7: decoding a derivation file (`Drv::read_from`) succeeds only when
the whole byte content is consumed and conforms to the fixed grammar:
every well-formed derivation byte string `encodeDrv d` decodes back to
`d` with no remaining bytes (and with exactly the trailing bytes left
over when some are appended, so the decode leaves no remaining bytes
precisely on the well-formed string itself); trailing bytes after the
closing parenthesis make `read_from` fail; and in the string grammar a
backslash escape other than `\\`, `\"`, `\n`, `\t` always fails, as
does an unterminated string (error or incomplete, both fatal to
`read_from`). -/
theorem c7_decode_total_grammar :
    (∀ (d : Drv) (s : List Char), drvP (encodeDrv d ++ s) = .ok s d) ∧
    (∀ d : Drv, readFromBytes (encodeDrv d) = some d) ∧
    (∀ (d : Drv) (s : List Char), s ≠ [] → readFromBytes (encodeDrv d ++ s) = none) ∧
    (∀ (pre : List Char) (c : Char) (t : List Char),
      (∀ a ∈ pre, a ≠ '\\' ∧ a ≠ '"') → escMap c = none →
      dstringP ('"' :: (pre ++ '\\' :: c :: t)) = .err) ∧
    (∀ t : List Char, ('"') ∉ t →
      dstringP (('"') :: t) = .err ∨ dstringP (('"') :: t) = .incomplete) := by
  refine ⟨drvP_roundtrip, readFromBytes_encode, readFromBytes_trailing, ?_, ?_⟩
  · intro pre c t hpre hc
    exact dstringP_bad_escape pre hpre c hc t
  · intro t hq
    exact dstringP_unterminated t hq

theorem c7_decode_total_grammar_witness :
    readFromBytes (encodeDrv c7Drv) = some c7Drv ∧
    readFromBytes (encodeDrv c7Drv ++ [' ']) = none ∧
    dstringP ('"' :: (['a'] ++ '\\' :: 'q' :: [])) = .err ∧
    (dstringP (('"') :: ['a']) = .err ∨ dstringP (('"') :: ['a']) = .incomplete) :=
  ⟨c7_decode_total_grammar.2.1 c7Drv,
   c7_decode_total_grammar.2.2.1 c7Drv [' '] (by decide),
   c7_decode_total_grammar.2.2.2.1 ['a'] 'q' [] (by decide) (by decide),
   c7_decode_total_grammar.2.2.2.2 ['a'] (by decide)⟩

end NixWeather
